import Mathlib

/-!
Shallow embedding of the pursuit-game core of `grid-game-v4.py`
(grid/pathfinding layer, prediction model, per-turn AI decision logic,
turn-based session machine), together with theorems settling the frozen
claims about its natural-language specification.

Conventions of the embedding:
* Python `[r, c]` cells become `Cell := Int × Int`.
* The grid is a list of rows of characters, exactly as in the source
  (`grid[r][c]`); indexing that the source only performs in bounds is
  embedded with `List.getD` defaults.
* Python `set` of trap cells becomes `Finset Cell`; `set.remove` becomes
  `Finset.erase`; the in-place mutation of `traps` inside the AI turn
  functions is embedded by returning the new trap set as part of the
  result tuple.
* The `while q:` BFS loop is embedded with an explicit fuel argument
  chosen large enough (`2 * n * n + 1`) that it is never exhausted; the
  `deque` becomes a list used FIFO (pop at the head, append at the tail)
  and the `prev` dict becomes an association list with insert-if-absent
  discipline.
* Floating-point constants (`0.15`, `2.0`, `0.50`) are embedded as exact
  rationals; counters hold values in `ℚ`.
* `random.random()` draws are passed in as explicit parameters.
* The curses rendering, key decoding and menu code are display-only and
  are outside the embedded core, exactly as the spec scopes them out.
-/

namespace GridGame

/-- A cell `[r, c]` of the grid: row and column as integers. -/
abbrev Cell := Int × Int

/-- The grid: a list of rows, each a list of tile characters. -/
abbrev Grid := List (List Char)

/-- Constant `GRID_SIZE = 9` from the source configuration block. -/
def GRID_SIZE : Int := 9

/-- Constant `NUM_TRAPS = 3`. -/
def NUM_TRAPS : Nat := 3

/-- Constant `AI_STUN_TURNS = 2`. -/
def AI_STUN_TURNS : Nat := 2

/-- Constant `MARKOV_ORDER = 2`. -/
def MARKOV_ORDER : Nat := 2

/-- Constant `RECENCY_WEIGHT = 2.0`, embedded exactly as a rational. -/
def RECENCY_WEIGHT : ℚ := 2

/-- Constant `PREDICT_FUZZ = 0.15`, embedded exactly as a rational. -/
def PREDICT_FUZZ : ℚ := 15 / 100

/-- Constant `CLOSE_RANGE = 2`. -/
def CLOSE_RANGE : Int := 2

/-- Tile character for an empty cell. -/
def EMPTY : Char := '.'

/-- Tile character for a wall. -/
def WALL : Char := '#'

/-- The four direction labels, keys of the Python `DIRS` dict. -/
inductive Dir where
  | north
  | south
  | west
  | east
  deriving DecidableEq, Repr

/-- The fixed iteration order of the `DIRS` dict: north, south, west, east. -/
def DIRS : List Dir := [.north, .south, .west, .east]

/-- The `(dr, dc)` delta of each direction, the values of `DIRS`. -/
def Dir.delta : Dir → Int × Int
  | .north => (-1, 0)
  | .south => (1, 0)
  | .west => (0, -1)
  | .east => (0, 1)

/-- The cell one unit step from `p` in direction `d`. -/
def stepCell (p : Cell) (d : Dir) : Cell :=
  (p.1 + d.delta.1, p.2 + d.delta.2)

/-- The tile character at cell `p`, as the source reads `grid[r][c]`
(only ever evaluated after a bounds check, so the defaults are inert). -/
def tileAt (g : Grid) (p : Cell) : Char :=
  (g.getD p.1.toNat []).getD p.2.toNat EMPTY

/-- Value `n = len(grid)` as an integer. -/
def gridN (g : Grid) : Int := (g.length : Int)

/-- The bounds check `0 <= r < n and 0 <= c < n` against `len(grid)`,
used by `neighbors`. -/
def inGrid (g : Grid) (p : Cell) : Prop :=
  0 ≤ p.1 ∧ p.1 < gridN g ∧ 0 ≤ p.2 ∧ p.2 < gridN g

instance (g : Grid) (p : Cell) : Decidable (inGrid g p) := by
  unfold inGrid; infer_instance

/-- Function `in_bounds(pos)` from the source: bounds against the global
`GRID_SIZE`, not against `len(grid)`. -/
def in_bounds (p : Cell) : Prop :=
  0 ≤ p.1 ∧ p.1 < GRID_SIZE ∧ 0 ≤ p.2 ∧ p.2 < GRID_SIZE

instance (p : Cell) : Decidable (in_bounds p) := by
  unfold in_bounds; infer_instance

/-- Function `manhattan(a, b)`. -/
def manhattan (a b : Cell) : Int :=
  |a.1 - b.1| + |a.2 - b.2|

/-- Function `neighbors(r, c, grid)`: the up-to-4 orthogonally adjacent
in-bounds non-wall cells, in the fixed `DIRS` order. -/
def neighbors (p : Cell) (g : Grid) : List Cell :=
  (DIRS.map (fun d => stepCell p d)).filter
    (fun q => decide (inGrid g q) && decide (tileAt g q ≠ WALL))

/-- Function `try_move(pos, move_label, grid)`: apply the unit delta; return the
new cell if it is inside the `GRID_SIZE` bounds and not a wall, and the
original position unchanged otherwise. -/
def try_move (pos : Cell) (d : Dir) (g : Grid) : Cell :=
  let np := stepCell pos d
  if in_bounds np ∧ tileAt g np ≠ WALL then np else pos

/-- A cell that is inside the grid and not a wall (the cells the game
keeps its entities on). -/
def onOpen (g : Grid) (p : Cell) : Prop :=
  inGrid g p ∧ tileAt g p ≠ WALL

instance (g : Grid) (p : Cell) : Decidable (onOpen g p) := by
  unfold onOpen; infer_instance

/-! ### BFS (`bfs_first_step`)

The `prev` dict is embedded as an association list `List (Cell × Option Cell)`
(`none` marks the start cell, `some p` records the BFS parent `p`), with
new keys consed at the front and inserted only when absent, so `List.lookup`
has exactly the dict's semantics.  The `deque` is a list popped at the head
and appended at the tail.  The `while` loops carry a fuel argument large
enough never to run out (proved below). -/

/-- The parent map of the BFS. -/
abbrev PrevMap := List (Cell × Option Cell)

/-- Dict lookup in the parent map (`prev[c]` / `c in prev`): first
matching key wins; keys are never inserted twice, so this is exactly the
Python dict's behaviour. -/
def lookupPrev : PrevMap → Cell → Option (Option Cell)
  | [], _ => none
  | (k, v) :: rest, c => if k = c then some v else lookupPrev rest c

/-- The reconstruction loop
`while prev[cur] != tuple(start): cur = prev[cur]` followed by
`return cur`.  Fuel-guarded; a missing key or the `None` marker stops the
walk (the source never hits either case, as proved by the invariants). -/
def walkBack (prev : PrevMap) (start : Cell) : Cell → Nat → Cell
  | cur, 0 => cur
  | cur, fuel + 1 =>
    match lookupPrev prev cur with
    | some (some p) => if p = start then cur else walkBack prev start p fuel
    | _ => cur

/-- Result of scanning the neighbors of one dequeued cell: either the
target was just discovered (the function returns the reconstructed first
step), or scanning finished with an extended queue and parent map. -/
inductive ScanResult where
  | found (c : Cell)
  | cont (q : List Cell) (prev : PrevMap)

/-- The `for nr, nc in neighbors(r, c, grid):` body: skip visited cells,
record the parent of each new cell, return the reconstructed first step
the moment the target is discovered, otherwise enqueue the new cell. -/
def scanNbrs (start target p : Cell) :
    List Cell → List Cell → PrevMap → ScanResult
  | [], q, prev => .cont q prev
  | u :: rest, q, prev =>
    if (lookupPrev prev u).isSome then
      scanNbrs start target p rest q prev
    else
      let prevNew : PrevMap := (u, some p) :: prev
      if u = target then
        .found (walkBack prevNew start target prevNew.length)
      else
        scanNbrs start target p rest (q ++ [u]) prevNew

/-- The `while q:` loop of `bfs_first_step`. -/
def bfsLoop (g : Grid) (start target : Cell) :
    Nat → List Cell → PrevMap → Option Cell
  | 0, _, _ => none
  | _ + 1, [], _ => none
  | fuel + 1, p :: qrest, prev =>
    match scanNbrs start target p (neighbors p g) qrest prev with
    | .found c => some c
    | .cont qNew prevNew => bfsLoop g start target fuel qNew prevNew

/-- Function `bfs_first_step(start, target, grid)`: returns `start` itself when
`start == target`; otherwise BFS from `start`, returning the first cell
on the reconstructed shortest path the moment `target` is discovered,
and `none` when the queue empties without reaching `target`. -/
def bfs_first_step (start target : Cell) (g : Grid) : Option Cell :=
  if start = target then some start
  else
    bfsLoop g start target (2 * (g.length * g.length) + 1) [start]
      [(start, none)]

/-! ### Walks and distances (the specification side for BFS) -/

/-- A walk of length `k` from `s` to `t` along the `neighbors` relation
(the graph BFS explores: each step goes to an in-bounds non-wall cell
orthogonally adjacent to the previous one). -/
inductive WalkN (g : Grid) : Cell → Nat → Cell → Prop where
  | refl (c : Cell) : WalkN g c 0 c
  | step {s : Cell} {k : Nat} {p q : Cell} :
      WalkN g s k p → q ∈ neighbors p g → WalkN g s (k + 1) q

/-- Cell `t` is reachable from `s` in the BFS graph. -/
def Reaches (g : Grid) (s t : Cell) : Prop := ∃ k, WalkN g s k t

/-- Number `d` is the true BFS shortest-path distance from `s` to `t`: a walk
of length `d` exists and no shorter one does. -/
def distIs (g : Grid) (s t : Cell) (d : Nat) : Prop :=
  WalkN g s d t ∧ ∀ k, WalkN g s k t → d ≤ k

/-! ### BFS correctness -/

/-- The key set of a parent map. -/
def keysOf (prev : PrevMap) : List Cell := prev.map Prod.fst

/-- Core facts about a parent map that the reconstruction walk needs:
every key other than `start` stores a parent that is itself a key, one
BFS level down, with a graph edge from the parent. -/
def ParentOk (g : Grid) (start : Cell) (lvl : Cell → Nat)
    (prev : PrevMap) : Prop :=
  ∀ c ∈ keysOf prev, c ≠ start →
    ∃ pc, lookupPrev prev c = some (some pc) ∧ pc ∈ keysOf prev ∧
      c ∈ neighbors pc g ∧ lvl c = lvl pc + 1

/-- The full loop invariant of the BFS `while` loop, with the queue kept
as two segments: `q1` holds the still-unprocessed cells of BFS level `D`
and `q2` the already-discovered cells of level `D + 1`. -/
structure BfsInv (g : Grid) (start target : Cell) (lvl : Cell → Nat)
    (D : Nat) (q1 q2 : List Cell) (prev : PrevMap) : Prop where
  keysNodup : (keysOf prev).Nodup
  startLook : lookupPrev prev start = some none
  parentOk : ParentOk g start lvl prev
  lvlStart : lvl start = 0
  hasWalk : ∀ c ∈ keysOf prev, WalkN g start (lvl c) c
  minLvl : ∀ c ∈ keysOf prev, ∀ k, WalkN g start k c → lvl c ≤ k
  comp : ∀ c k, WalkN g start k c → k ≤ D → c ∈ keysOf prev
  qSub : ∀ c ∈ q1 ++ q2, c ∈ keysOf prev
  qNodup : (q1 ++ q2).Nodup
  procDone : ∀ c ∈ keysOf prev, c ∉ q1 ++ q2 →
    ∀ u ∈ neighbors c g, u ∈ keysOf prev
  q1Lvl : ∀ c ∈ q1, lvl c = D
  q2Lvl : ∀ c ∈ q2, lvl c = D + 1
  notFound : target ∉ keysOf prev
  lvlLt : ∀ c ∈ keysOf prev, lvl c < prev.length
  keysOpen : ∀ c ∈ keysOf prev, c ≠ start → onOpen g c

/-- What holds of the reconstructed cell when the BFS discovers the
target while processing a cell of level `D`: the result is a neighbor of
`start`, the true distance to the target is `D + 1`, and from the result
the remaining distance is exactly `D`. -/
def FoundSpec (g : Grid) (start target c : Cell) (D : Nat) : Prop :=
  c ∈ neighbors start g ∧ distIs g start target (D + 1) ∧ distIs g c target D

/-- Invariant holding between two neighbor-scanning steps while the cell
`p` (of level `D`) is being processed: `rest` is the not-yet-scanned
suffix of `p`'s neighbor list, and the queue is `q1 ++ q2` as in
`BfsInv` except that `p`'s neighbor-closure is only guaranteed for the
already-scanned neighbors. -/
structure ScanInv (g : Grid) (start target p : Cell) (lvl : Cell → Nat)
    (D : Nat) (rest q1 q2 : List Cell) (prev : PrevMap) : Prop where
  restNbrs : ∀ u ∈ rest, u ∈ neighbors p g
  scanned : ∀ u ∈ neighbors p g, u ∉ rest → u ∈ keysOf prev
  pMem : p ∈ keysOf prev
  pLvl : lvl p = D
  pNotQ : p ∉ q1 ++ q2
  keysNodup : (keysOf prev).Nodup
  startLook : lookupPrev prev start = some none
  parentOk : ParentOk g start lvl prev
  lvlStart : lvl start = 0
  hasWalk : ∀ c ∈ keysOf prev, WalkN g start (lvl c) c
  minLvl : ∀ c ∈ keysOf prev, ∀ k, WalkN g start k c → lvl c ≤ k
  comp : ∀ c k, WalkN g start k c → k ≤ D → c ∈ keysOf prev
  qSub : ∀ c ∈ q1 ++ q2, c ∈ keysOf prev
  qNodup : (q1 ++ q2).Nodup
  procMid : ∀ c ∈ keysOf prev, c ∉ q1 ++ q2 → c ≠ p →
    ∀ u ∈ neighbors c g, u ∈ keysOf prev
  q1Lvl : ∀ c ∈ q1, lvl c = D
  q2Lvl : ∀ c ∈ q2, lvl c = D + 1
  notFound : target ∉ keysOf prev
  lvlLt : ∀ c ∈ keysOf prev, lvl c < prev.length
  keysOpen : ∀ c ∈ keysOf prev, c ≠ start → onOpen g c

/-- The set of in-bounds cells of the grid, as a finite set. -/
def allCells (g : Grid) : Finset Cell :=
  (Finset.range g.length ×ˢ Finset.range g.length).image
    (fun rc => ((rc.1 : Int), (rc.2 : Int)))

/-! ### AI turn logic (`ai_a_turn`, `ai_b_turn`)

The Python functions mutate the `traps` set in place; the embedding
returns the updated trap set as the third component of the result. -/

/-- The greedy fallback of the primary adversary: scan the four
directions in `DIRS` order, keep in-bounds non-wall candidates not
occupied by the other adversary, and remember the first candidate
strictly improving the Manhattan distance to the intercept target
(initial best: stay put, at distance `10^9`). -/
def greedyStepA (g : Grid) (pos intercept ai2 : Cell) : Cell :=
  (DIRS.foldl
    (fun (acc : Cell × Int) d =>
      let cand := stepCell pos d
      if in_bounds cand ∧ tileAt g cand ≠ WALL ∧ cand ≠ ai2 then
        let dd := manhattan cand intercept
        if dd < acc.2 then (cand, dd) else acc
      else acc)
    (pos, 1000000000)).1

/-- One step choice of the primary adversary: the intercept target is
the first step of the player's path to the goal (`player_pos` when there
is none), and the step is the BFS first step toward it, falling back to
the greedy choice when BFS finds no path. -/
def aiAStep (g : Grid) (player goal ai2 pos : Cell) : Cell :=
  let intercept := (bfs_first_step player goal g).getD player
  match bfs_first_step pos intercept g with
  | some s => s
  | none => greedyStepA g pos intercept ai2

/-- The `for _ in range(moves)` loop of `ai_a_turn`: recompute the
intercept target, take the BFS step toward it (or the greedy fallback),
stop without moving when the step would land on the other adversary,
consume a trap (stun, move there, stop) when it lands on one, and
otherwise move and continue. -/
def aiALoop (g : Grid) (player goal ai2 : Cell) :
    Nat → Cell → Finset Cell → Cell × Nat × Finset Cell
  | 0, pos, traps => (pos, 0, traps)
  | n + 1, pos, traps =>
    let step := aiAStep g player goal ai2 pos
    if step = ai2 then (pos, 0, traps)
    else if step ∈ traps then (step, AI_STUN_TURNS, traps.erase step)
    else aiALoop g player goal ai2 n step traps

/-- Function `ai_a_turn(ai_pos, player_pos, grid, traps, this_moves, model,
global_counts, stunned, goal_pos, ai2_pos)`: the primary adversary's
turn.  Returns `(new_ai_pos, stunned_left, traps)`. -/
def ai_a_turn (ai_pos player_pos : Cell) (g : Grid) (traps : Finset Cell)
    (this_moves : List Dir) (model : List Dir → Dir → ℚ)
    (global_counts : Dir → ℚ) (stunned : Nat) (goal_pos ai2_pos : Cell) :
    Cell × Nat × Finset Cell :=
  if stunned > 0 then (ai_pos, stunned - 1, traps)
  else
    let moves := if manhattan ai_pos player_pos > CLOSE_RANGE + 2 then 2
      else 1
    aiALoop g player_pos goal_pos ai2_pos moves ai_pos traps

/-- The per-step greedy choice of the secondary adversary: start from
the current cell at its own Manhattan distance to the player, scan the
four directions in `DIRS` order, keep in-bounds non-wall candidates not
occupied by the primary adversary, and remember the first candidate
strictly improving the distance. -/
def greedyStepB (g : Grid) (pos player aiP : Cell) : Cell :=
  (DIRS.foldl
    (fun (acc : Cell × Int) d =>
      let cand := stepCell pos d
      if in_bounds cand ∧ tileAt g cand ≠ WALL ∧ cand ≠ aiP then
        let dd := manhattan cand player
        if dd < acc.2 then (cand, dd) else acc
      else acc)
    (pos, manhattan pos player)).1

/-- The `for _ in range(moves)` loop of `ai_b_turn`. -/
def aiBLoop (g : Grid) (player aiP : Cell) :
    Nat → Cell → Finset Cell → Cell × Nat × Finset Cell
  | 0, pos, traps => (pos, 0, traps)
  | n + 1, pos, traps =>
    let best := greedyStepB g pos player aiP
    if best = aiP then (pos, 0, traps)
    else if best ∈ traps then (best, AI_STUN_TURNS, traps.erase best)
    else aiBLoop g player aiP n best traps

/-- Function `ai_b_turn(ai2_pos, player_pos, grid, traps, stunned, ai_pos)`: the
secondary adversary's turn.  Returns `(new_ai2_pos, stunned_left,
traps)`. -/
def ai_b_turn (ai2_pos player_pos : Cell) (g : Grid) (traps : Finset Cell)
    (stunned : Nat) (ai_pos : Cell) : Cell × Nat × Finset Cell :=
  if stunned > 0 then (ai2_pos, stunned - 1, traps)
  else
    let moves := if manhattan ai2_pos player_pos > CLOSE_RANGE + 2 then 2
      else 1
    aiBLoop g player_pos ai_pos moves ai2_pos traps

/-- The list of legal candidate cells the secondary adversary's greedy
scan considers: the four adjacent cells, in `DIRS` order, that are
in-bounds, non-wall, and not occupied by the primary adversary. -/
def candListB (g : Grid) (pos aiP : Cell) : List Cell :=
  (DIRS.map (fun d => stepCell pos d)).filter
    (fun c => decide (in_bounds c ∧ tileAt g c ≠ WALL ∧ c ≠ aiP))

/-! ### Prediction model (`build_markov_model`, `predict_next_move`,
`choose_from_counter`)

Counters over direction strings become functions into `ℚ`; the model
dict becomes a function from contexts (direction lists) to per-direction
counts, with absent contexts mapping to zero exactly as
`model.get(ctx, Counter())` does.  `random.random()` draws are explicit
parameters. -/

/-- The trailing context `this_game_moves[-k:]`. -/
def lastK (l : List Dir) (k : Nat) : List Dir := l.drop (l.length - k)

/-- Number of occurrences of direction `d` in `l` (a `Counter` entry). -/
def countD (l : List Dir) (d : Dir) : Nat := (l.filter (fun m => m = d)).length

/-- Function `build_markov_model(memory, order)`: for every game sequence, every
position `i` and every context length `k ≤ order` with `k ≤ i`, count
one occurrence of move `seq[i]` after context `seq[i-k:i]`; global
counts tally every move of every sequence. -/
def build_markov_model (games : List (List Dir)) (order : Nat) :
    (List Dir → Dir → ℚ) × (Dir → ℚ) :=
  (fun ctx d =>
    (games.map (fun seq =>
      ((List.range seq.length).map (fun i =>
        ((List.range' 1 order).map (fun k =>
          if k ≤ i ∧ (seq.drop (i - k)).take k = ctx ∧ seq.get? i = some d
          then (1 : ℚ) else 0)).sum)).sum)).sum,
   fun d => (games.map (fun seq => ((countD seq d : ℚ)))).sum)

/-- The score accumulation of `predict_next_move`: the `combined`
counter as it stands just before sampling.  Contexts from length `order`
down to 1 (when enough session moves exist) add their per-direction
counts; then each direction gains `0.50 * global + RECENCY_WEIGHT *
(count among the last 8 session moves)`, and finally `PREDICT_FUZZ`. -/
def predictScores (this_game_moves : List Dir)
    (model : List Dir → Dir → ℚ) (global_counts : Dir → ℚ)
    (order : Nat) : Dir → ℚ :=
  let combined : Dir → ℚ :=
    ((List.range' 1 order).reverse).foldl
      (fun f k =>
        if k ≤ this_game_moves.length then
          fun d => f d + model (lastK this_game_moves k) d
        else f)
      (fun _ => 0)
  let game_counts : Dir → ℚ :=
    fun d => (countD (lastK this_game_moves 8) d : ℚ)
  let combined : Dir → ℚ := fun d =>
    combined d + 1 / 2 * global_counts d + RECENCY_WEIGHT * game_counts d
  fun d => combined d + PREDICT_FUZZ

/-- The accumulation loop of `choose_from_counter`: returns the first
item whose running total reaches `r`. -/
def chooseGo (r : ℚ) : ℚ → List (Dir × ℚ) → Option Dir
  | _, [] => none
  | acc, (k, v) :: rest =>
    if r ≤ acc + v then some k else chooseGo r (acc + v) rest

/-- Function `choose_from_counter(counter_dict)`: proportional sampling.  `u`
stands for the `random.random()` draw and `uchoice` for the uniform
`random.choice` fallback Python uses when the counter is empty. -/
def choose_from_counter (items : List (Dir × ℚ)) (u : ℚ) (uchoice : Dir) :
    Dir :=
  match items with
  | [] => uchoice
  | _ :: _ =>
    let total := (items.map Prod.snd).sum
    (chooseGo (u * total) 0 items).getD (items.getLastD (uchoice, 0)).1

/-- Function `predict_next_move`: sample a direction from the accumulated scores.
(The `items` order is the Python `Counter`'s insertion order; with an
empty context model it is exactly the `DIRS` order used here.) -/
def predict_next_move (this_game_moves : List Dir)
    (model : List Dir → Dir → ℚ) (global_counts : Dir → ℚ)
    (order : Nat) (u : ℚ) (uchoice : Dir) : Dir :=
  let combined := predictScores this_game_moves model global_counts order
  choose_from_counter (DIRS.map (fun d => (d, combined d))) u uchoice

/-! ### Game session (`main` loop) and persistent store (`save_game`)

The store is the `games` list held by `ai_memory.json`; `save_game`
re-loads the file and appends one record, which on the modelled
in-memory list is exactly an append.  Rendering, messages and key
decoding are display-only and omitted; each loop iteration consumes one
resolved input. -/

/-- A session's terminal result (`"win"`, `"loss"`, `"quit"`). -/
inductive GameResult where
  | win
  | loss
  | quit
  deriving DecidableEq, Repr

/-- One persisted record, as `save_game` builds it. -/
structure SessionRecord where
  moves : List Dir
  result : GameResult
  grid : Int
  successful_traps : Nat
  deriving DecidableEq, Repr

/-- Function `save_game(moves, result, successful_traps)` on a store holding
`data["games"]`. -/
def save_game (store : List SessionRecord) (moves : List Dir)
    (result : GameResult) (successful_traps : Nat) : List SessionRecord :=
  store ++ [⟨moves, result, GRID_SIZE, successful_traps⟩]

/-- One resolved player input: the four cases the main loop
distinguishes (`q`, `t`, an arrow key, anything else). -/
inductive Input where
  | quit
  | trap
  | move (d : Dir)
  | other

/-- The mutable state of the main loop (display-only pieces omitted). -/
structure GameState where
  grid : Grid
  player : Cell
  ai : Cell
  ai2 : Cell
  goal : Cell
  traps : Finset Cell
  trapsLeft : Nat
  movesList : List Dir
  aiStunned : Nat
  ai2Stunned : Nat
  successfulTraps : Nat
  turn : Nat

/-- One iteration of the `while True:` loop of `main`: either the game
goes on with an updated state (`inl`) or the session ends and the data
`save_game` receives is produced (`inr`: moves, result,
successful-traps). -/
def sessionTurn (model : List Dir → Dir → ℚ) (global_counts : Dir → ℚ)
    (i : Input) (s : GameState) :
    GameState ⊕ (List Dir × GameResult × Nat) :=
  match i with
  | .quit => .inr (s.movesList, .quit, s.successfulTraps)
  | _ =>
    let s1 : GameState :=
      match i with
      | .trap =>
        if s.trapsLeft > 0 ∧ s.player ∉ s.traps then
          { s with
              traps := insert s.player s.traps
              trapsLeft := s.trapsLeft - 1 }
        else s
      | .move d =>
        let new_pos := try_move s.player d s.grid
        if new_pos ≠ s.player then
          { s with
              player := new_pos
              movesList := s.movesList ++ [d] }
        else s
      | _ => s
    if s1.player = s1.goal then .inr (s1.movesList, .win, s1.successfulTraps)
    else
      let ra := ai_a_turn s1.ai s1.player s1.grid s1.traps s1.movesList
        model global_counts s1.aiStunned s1.goal s1.ai2
      let s2 : GameState :=
        { s1 with
            ai := ra.1
            aiStunned := ra.2.1
            traps := ra.2.2
            successfulTraps :=
              if ra.2.1 > 0 ∧ s1.aiStunned = 0 then s1.successfulTraps + 1
              else s1.successfulTraps }
      let rb := ai_b_turn s2.ai2 s2.player s2.grid s2.traps s2.ai2Stunned
        s2.ai
      let s3 : GameState :=
        { s2 with
            ai2 := rb.1
            ai2Stunned := rb.2.1
            traps := rb.2.2
            successfulTraps :=
              if rb.2.1 > 0 ∧ s2.ai2Stunned = 0 then s2.successfulTraps + 1
              else s2.successfulTraps }
      if s3.ai = s3.player ∨ s3.ai2 = s3.player then
        .inr (s3.movesList, .loss, s3.successfulTraps)
      else
        .inl { s3 with turn := s3.turn + 1 }

/-- The main loop over a list of resolved inputs: on a terminal
transition, call `save_game` on the store and stop; when the input
stream ends with the game still on, the store is untouched and no
result is produced. -/
def sessionLoop (model : List Dir → Dir → ℚ) (global_counts : Dir → ℚ) :
    List Input → GameState → List SessionRecord →
      List SessionRecord × Option GameResult
  | [], _, store => (store, none)
  | i :: rest, s, store =>
    match sessionTurn model global_counts i s with
    | .inr (mv, res, st) => (save_game store mv res st, some res)
    | .inl s3 => sessionLoop model global_counts rest s3 store

/-- Statement of the two-run dependence claim as written: for some
grid, positions, traps, stun state and session moves, two prediction
models (model plus global counts) yield different primary-agent
outcomes. -/
def TwoRunModelDependence : Prop :=
  ∃ (g : Grid) (ai player goal ai2 : Cell) (traps : Finset Cell)
    (tm : List Dir) (stunned : Nat)
    (m1 m2 : List Dir → Dir → ℚ) (gc1 gc2 : Dir → ℚ),
    ai_a_turn ai player g traps tm m1 gc1 stunned goal ai2 ≠
      ai_a_turn ai player g traps tm m2 gc2 stunned goal ai2

/-! ### Concrete fixtures used by the witnesses -/

/-- An all-empty 9-by-9 grid. -/
def emptyGrid9 : Grid := List.replicate 9 (List.replicate 9 '.')

/-- A 9-by-9 grid whose only wall is at cell `(0, 1)`. -/
def wallGrid9 : Grid :=
  ['.', '#', '.', '.', '.', '.', '.', '.', '.'] ::
    List.replicate 8 (List.replicate 9 '.')

/-- An all-empty 2-by-2 grid. -/
def grid2 : Grid := [['.', '.'], ['.', '.']]

/-- A small game state on the empty grid: player at the origin, goal one
step east, adversaries far away. -/
def demoState : GameState :=
  { grid := emptyGrid9
    player := (0, 0)
    ai := (8, 8)
    ai2 := (8, 0)
    goal := (0, 1)
    traps := ∅
    trapsLeft := NUM_TRAPS
    movesList := []
    aiStunned := 0
    ai2Stunned := 0
    successfulTraps := 0
    turn := 1 }

/-- Variant of `demoState` in which the primary adversary is stunned and
the secondary sits next to the player, forcing a loss. -/
def demoLossState : GameState :=
  { demoState with
      ai2 := (0, 1)
      aiStunned := 2 }

/-- Outcome of a concrete primary-adversary turn that consumes the trap
at `(0, 3)`. -/
def c3A : Cell × Nat × Finset Cell :=
  ai_a_turn (0, 5) (0, 0) emptyGrid9 ({(0, 3), (7, 8)} : Finset Cell) []
    (fun _ _ => 0) (fun _ => 0) 0 (0, 1) (8, 8)

/-- Outcome of the secondary adversary's turn right after `c3A`, which
consumes the trap at `(7, 8)`. -/
def c3B : Cell × Nat × Finset Cell :=
  ai_b_turn (8, 8) (0, 0) emptyGrid9 c3A.2.2 0 c3A.1

lemma mem_neighbors {g : Grid} {p q : Cell} (h : q ∈ neighbors p g) :
    inGrid g q ∧ tileAt g q ≠ WALL := by
  unfold neighbors at h
  rw [List.mem_filter] at h
  have h2 := h.2
  rw [Bool.and_eq_true, decide_eq_true_eq, decide_eq_true_eq] at h2
  exact h2

lemma mem_neighbors_onOpen {g : Grid} {p q : Cell} (h : q ∈ neighbors p g) :
    onOpen g q :=
  mem_neighbors h

lemma WalkN.trans {g : Grid} {a : Cell} {m : Nat} {b : Cell} {n : Nat}
    {c : Cell} (h1 : WalkN g a m b) (h2 : WalkN g b n c) :
    WalkN g a (m + n) c := by
  induction h2 with
  | refl => exact h1
  | step w e ih => exact .step ih e

lemma walkN_one {g : Grid} {a b : Cell} (h : b ∈ neighbors a g) :
    WalkN g a 1 b :=
  .step (.refl a) h

/-- Splitting a nonempty walk at its last step. -/
lemma WalkN.last_step {g : Grid} {s : Cell} {k : Nat} {t : Cell}
    (h : WalkN g s (k + 1) t) :
    ∃ p, WalkN g s k p ∧ t ∈ neighbors p g := by
  cases h with
  | step w e => exact ⟨_, w, e⟩

lemma WalkN.zero_eq {g : Grid} {s t : Cell} (h : WalkN g s 0 t) : s = t := by
  cases h; rfl

lemma lookupPrev_isSome_iff {prev : PrevMap} {c : Cell} :
    (lookupPrev prev c).isSome = true ↔ c ∈ keysOf prev := by
  induction prev with
  | nil => simp [lookupPrev, keysOf]
  | cons kv rest ih =>
    obtain ⟨k, v⟩ := kv
    by_cases h : k = c
    · subst h
      simp [lookupPrev, keysOf]
    · simp [lookupPrev, keysOf, h, Ne.symm h] at ih ⊢
      exact ih

lemma lookupPrev_mem {prev : PrevMap} {c : Cell} {v : Option Cell}
    (h : lookupPrev prev c = some v) : c ∈ keysOf prev := by
  rw [← lookupPrev_isSome_iff, h]
  rfl

lemma lookupPrev_cons_ne {prev : PrevMap} {k c : Cell} {v : Option Cell}
    (h : k ≠ c) : lookupPrev ((k, v) :: prev) c = lookupPrev prev c := by
  simp [lookupPrev, h]

lemma lookupPrev_cons_self {prev : PrevMap} {k : Cell} {v : Option Cell} :
    lookupPrev ((k, v) :: prev) k = some v := by
  simp [lookupPrev]

/-- Reconstruction correctness: from any non-start key `c`, `walkBack`
(with fuel at least `lvl c`) reaches the unique key whose parent is
`start`; that key is at level 1 and a walk of length `lvl c - 1` leads
from it to `c`. -/
lemma walkBack_spec {g : Grid} {start : Cell} {lvl : Cell → Nat}
    {prev : PrevMap} (hpar : ParentOk g start lvl prev)
    (hstart : lvl start = 0) :
    ∀ f c, lvl c ≤ f → c ∈ keysOf prev → c ≠ start →
      ∃ c1, walkBack prev start c f = c1 ∧
        lookupPrev prev c1 = some (some start) ∧ lvl c1 = 1 ∧
        WalkN g c1 (lvl c - 1) c := by
  intro f
  induction f with
  | zero =>
    intro c hle hmem hne
    obtain ⟨pc, _, _, _, hlvl⟩ := hpar c hmem hne
    omega
  | succ f ih =>
    intro c hle hmem hne
    obtain ⟨pc, hlook, hpcmem, hedge, hlvl⟩ := hpar c hmem hne
    by_cases hpc : pc = start
    · refine ⟨c, ?_, hpc ▸ hlook, ?_, ?_⟩
      · show walkBack prev start c (f + 1) = c
        unfold walkBack
        rw [hlook]
        simp [hpc]
      · rw [hpc] at hlvl
        omega
      · rw [hpc] at hlvl
        have h0 : lvl c - 1 = 0 := by omega
        rw [h0]
        exact .refl c
    · obtain ⟨ppc, _, _, _, hlvlp⟩ := hpar pc hpcmem hpc
      have hlep : lvl pc ≤ f := by omega
      obtain ⟨c1, hwb, hlook1, hlvl1, hwalk⟩ := ih pc hlep hpcmem hpc
      refine ⟨c1, ?_, hlook1, hlvl1, ?_⟩
      · show walkBack prev start c (f + 1) = c1
        unfold walkBack
        rw [hlook]
        simp [hpc, hwb]
      · have h1 : lvl c - 1 = (lvl pc - 1) + 1 := by omega
        rw [h1]
        exact .step hwalk hedge

@[simp] lemma keysOf_cons {k : Cell} {v : Option Cell} {prev : PrevMap} :
    keysOf ((k, v) :: prev) = k :: keysOf prev := rfl

/-- Discovering the target while scanning establishes `FoundSpec` for
the value `scanNbrs` returns. -/
lemma scanFound {g : Grid} {start target p : Cell} (hst : start ≠ target)
    {lvl : Cell → Nat} {D : Nat} {rest q1 q2 : List Cell} {prev : PrevMap}
    (SI : ScanInv g start target p lvl D (target :: rest) q1 q2 prev)
    (hnew : lookupPrev prev target = none) :
    FoundSpec g start target
      (walkBack ((target, some p) :: prev) start target
        (((target, some p) :: prev).length)) D := by
  have hedge : target ∈ neighbors p g := SI.restNbrs target (by simp)
  have hpt : p ≠ target := fun h => SI.notFound (h ▸ SI.pMem)
  set prevNew : PrevMap := (target, some p) :: prev with hprevNew
  set lvl2 : Cell → Nat := fun c => if c = target then D + 1 else lvl c
    with hlvl2
  have hlvl2t : lvl2 target = D + 1 := by simp [hlvl2]
  have hlvl2ne : ∀ c, c ≠ target → lvl2 c = lvl c := by
    intro c hc; simp [hlvl2, hc]
  have hkeysNe : ∀ c ∈ keysOf prev, c ≠ target := by
    intro c hc h; exact SI.notFound (h ▸ hc)
  have hpar2 : ParentOk g start lvl2 prevNew := by
    intro c hc hcs
    rw [hprevNew, keysOf_cons, List.mem_cons] at hc
    rcases hc with hc | hc
    · subst hc
      refine ⟨p, lookupPrev_cons_self, ?_, hedge, ?_⟩
      · simp [hprevNew, SI.pMem]
      · rw [hlvl2t, hlvl2ne p hpt, SI.pLvl]
    · have hcne : c ≠ target := hkeysNe c hc
      obtain ⟨pc, hl, hm, he, hv⟩ := SI.parentOk c hc hcs
      refine ⟨pc, ?_, ?_, he, ?_⟩
      · rw [hprevNew, lookupPrev_cons_ne (Ne.symm hcne), hl]
      · simp [hprevNew, hm]
      · rw [hlvl2ne c hcne, hlvl2ne pc (hkeysNe pc hm), hv]
  have hlvl2s : lvl2 start = 0 := by
    rw [hlvl2ne start hst, SI.lvlStart]
  have htmem : target ∈ keysOf prevNew := by simp [hprevNew]
  have hDlt : D + 1 ≤ prevNew.length := by
    have := SI.lvlLt p SI.pMem
    rw [SI.pLvl] at this
    simp [hprevNew]
    omega
  obtain ⟨c1, hwb, hlook1, hlvl11, hwalk1⟩ :=
    walkBack_spec hpar2 hlvl2s prevNew.length target
      (by rw [hlvl2t]; exact hDlt) htmem (Ne.symm hst)
  have hc1mem : c1 ∈ keysOf prevNew := lookupPrev_mem hlook1
  have hc1ne : c1 ≠ start := by
    intro h
    rw [h, hlvl2s] at hlvl11
    exact absurd hlvl11 (by omega)
  have hc1nbr : c1 ∈ neighbors start g := by
    obtain ⟨pc, hl, _, he, _⟩ := hpar2 c1 hc1mem hc1ne
    rw [hlook1] at hl
    have : start = pc := by
      injection hl with h1
      injection h1
    rw [this]
    exact he
  have hwalkT : WalkN g start (D + 1) target := by
    have hw := SI.hasWalk p SI.pMem
    rw [SI.pLvl] at hw
    exact .step hw hedge
  have hminT : ∀ k, WalkN g start k target → D + 1 ≤ k := by
    intro k hk
    by_contra hlt
    push_neg at hlt
    exact SI.notFound (SI.comp target k hk (by omega))
  rw [hwb]
  refine ⟨hc1nbr, ⟨hwalkT, hminT⟩, ?_, ?_⟩
  · have : lvl2 target - 1 = D := by rw [hlvl2t]; omega
    rwa [this] at hwalk1
  · intro j hj
    have : WalkN g start (1 + j) target :=
      WalkN.trans (walkN_one hc1nbr) hj
    have := hminT _ this
    omega

/-- Discovering a new non-target cell `u` extends the scan invariant:
`u` is recorded with parent `p` at level `D + 1` and appended to the
queue. -/
lemma scanAdd {g : Grid} {start target p u : Cell} (hst : start ≠ target)
    {lvl : Cell → Nat} {D : Nat} {rest q1 q2 : List Cell} {prev : PrevMap}
    (SI : ScanInv g start target p lvl D (u :: rest) q1 q2 prev)
    (hnew : lookupPrev prev u = none) (hut : u ≠ target) :
    ScanInv g start target p (fun c => if c = u then D + 1 else lvl c) D
      rest q1 (q2 ++ [u]) ((u, some p) :: prev) := by
  have hedge : u ∈ neighbors p g := SI.restNbrs u (by simp)
  have hu : u ∉ keysOf prev := by
    intro h
    rw [← lookupPrev_isSome_iff, hnew] at h
    exact absurd h (by simp)
  have hkeysNe : ∀ c ∈ keysOf prev, c ≠ u := fun c hc h => hu (h ▸ hc)
  have hpu : p ≠ u := hkeysNe p SI.pMem
  have hsu : start ≠ u := hkeysNe start (lookupPrev_mem SI.startLook)
  have huq : u ∉ q1 ++ q2 := fun h => hu (SI.qSub u h)
  set lvl2 : Cell → Nat := fun c => if c = u then D + 1 else lvl c
    with hlvl2
  have hlvl2u : lvl2 u = D + 1 := by simp [hlvl2]
  have hlvl2ne : ∀ c, c ≠ u → lvl2 c = lvl c := by
    intro c hc; simp [hlvl2, hc]
  refine ⟨?_, ?_, ?_, ?_, ?_, ?_, ?_, ?_, ?_, ?_, ?_, ?_, ?_, ?_, ?_, ?_,
    ?_, ?_, ?_, ?_⟩
  · intro v hv
    exact SI.restNbrs v (by simp [hv])
  · intro v hv hvr
    by_cases hvu : v = u
    · simp [hvu]
    · have : v ∉ u :: rest := by simp [hvu, hvr]
      have := SI.scanned v hv this
      simp [this]
  · simp [SI.pMem]
  · rw [hlvl2ne p hpu, SI.pLvl]
  · intro h
    rw [List.mem_append] at h
    rcases h with h | h
    · exact SI.pNotQ (by simp [h])
    · rw [List.mem_append] at h
      rcases h with h | h
      · exact SI.pNotQ (by simp [h])
      · simp at h
        exact hpu h
  · rw [keysOf_cons]
    exact List.nodup_cons.mpr ⟨hu, SI.keysNodup⟩
  · rw [lookupPrev_cons_ne (Ne.symm hsu)]
    exact SI.startLook
  · intro c hc hcs
    rw [keysOf_cons, List.mem_cons] at hc
    rcases hc with hc | hc
    · subst hc
      refine ⟨p, lookupPrev_cons_self, by simp [SI.pMem], hedge, ?_⟩
      rw [hlvl2u, hlvl2ne p hpu, SI.pLvl]
    · have hcne : c ≠ u := hkeysNe c hc
      obtain ⟨pc, hl, hm, he, hv⟩ := SI.parentOk c hc hcs
      refine ⟨pc, ?_, by simp [hm], he, ?_⟩
      · rw [lookupPrev_cons_ne (Ne.symm hcne), hl]
      · rw [hlvl2ne c hcne, hlvl2ne pc (hkeysNe pc hm), hv]
  · rw [hlvl2ne start hsu, SI.lvlStart]
  · intro c hc
    rw [keysOf_cons, List.mem_cons] at hc
    rcases hc with hc | hc
    · subst hc
      rw [hlvl2u]
      have hw := SI.hasWalk p SI.pMem
      rw [SI.pLvl] at hw
      exact .step hw hedge
    · rw [hlvl2ne c (hkeysNe c hc)]
      exact SI.hasWalk c hc
  · intro c hc k hk
    rw [keysOf_cons, List.mem_cons] at hc
    rcases hc with hc | hc
    · subst hc
      rw [hlvl2u]
      by_contra hlt
      push_neg at hlt
      exact hu (SI.comp c k hk (by omega))
    · rw [hlvl2ne c (hkeysNe c hc)]
      exact SI.minLvl c hc k hk
  · intro c k hk hkD
    have := SI.comp c k hk hkD
    simp [this]
  · intro c hc
    rw [List.mem_append] at hc
    rcases hc with hc | hc
    · have := SI.qSub c (by simp [hc])
      simp [this]
    · rw [List.mem_append] at hc
      rcases hc with hc | hc
      · have := SI.qSub c (by simp [hc])
        simp [this]
      · simp at hc
        simp [hc]
  · have h1 : q1 ++ (q2 ++ [u]) = (q1 ++ q2) ++ [u] := by
      rw [List.append_assoc]
    rw [h1]
    refine SI.qNodup.append (List.nodup_singleton u) ?_
    intro v hv hv2
    simp at hv2
    exact huq (hv2 ▸ hv)
  · intro c hc hcq hcp
    rw [keysOf_cons, List.mem_cons] at hc
    rcases hc with hc | hc
    · exact absurd (by simp [hc] : c ∈ q1 ++ (q2 ++ [u])) hcq
    · have hcq2 : c ∉ q1 ++ q2 := by
        intro h
        rw [List.mem_append] at h
        rcases h with h | h
        · exact hcq (by simp [h])
        · exact hcq (by simp [h])
      intro v hv
      have := SI.procMid c hc hcq2 hcp v hv
      simp [this]
  · intro c hc
    have hck : c ∈ keysOf prev := SI.qSub c (by simp [hc])
    rw [hlvl2ne c (hkeysNe c hck)]
    exact SI.q1Lvl c hc
  · intro c hc
    rw [List.mem_append] at hc
    rcases hc with hc | hc
    · have hck : c ∈ keysOf prev := SI.qSub c (by simp [hc])
      rw [hlvl2ne c (hkeysNe c hck)]
      exact SI.q2Lvl c hc
    · simp at hc
      subst hc
      exact hlvl2u
  · rw [keysOf_cons, List.mem_cons]
    rintro (h | h)
    · exact hut h.symm
    · exact SI.notFound h
  · intro c hc
    rw [keysOf_cons, List.mem_cons] at hc
    simp only [List.length_cons]
    rcases hc with hc | hc
    · subst hc
      rw [hlvl2u]
      have := SI.lvlLt p SI.pMem
      rw [SI.pLvl] at this
      omega
    · rw [hlvl2ne c (hkeysNe c hc)]
      have := SI.lvlLt c hc
      omega
  · intro c hc hcs
    rw [keysOf_cons, List.mem_cons] at hc
    rcases hc with hc | hc
    · subst hc
      exact mem_neighbors_onOpen hedge
    · exact SI.keysOpen c hc hcs

/-- A finished scan re-establishes the full loop invariant. -/
lemma scanFinish {g : Grid} {start target p : Cell}
    {lvl : Cell → Nat} {D : Nat} {q1 q2 : List Cell} {prev : PrevMap}
    (SI : ScanInv g start target p lvl D [] q1 q2 prev) :
    BfsInv g start target lvl D q1 q2 prev := by
  refine ⟨SI.keysNodup, SI.startLook, SI.parentOk, SI.lvlStart, SI.hasWalk,
    SI.minLvl, SI.comp, SI.qSub, SI.qNodup, ?_, SI.q1Lvl, SI.q2Lvl,
    SI.notFound, SI.lvlLt, SI.keysOpen⟩
  intro c hc hcq u hu
  by_cases hcp : c = p
  · subst hcp
    exact SI.scanned u hu (by simp)
  · exact SI.procMid c hc hcq hcp u hu

/-- Main lemma about the neighbor scan: it either discovers the target
(and then `FoundSpec` holds of the returned first step) or finishes with
the loop invariant restored and the measure accounted for. -/
lemma scanNbrs_go {g : Grid} {start target p : Cell} (hst : start ≠ target)
    {D : Nat} (q1 : List Cell) :
    ∀ (rest q2 : List Cell) (lvl : Cell → Nat) (prev : PrevMap),
      ScanInv g start target p lvl D rest q1 q2 prev →
      (match scanNbrs start target p rest (q1 ++ q2) prev with
       | .found c => FoundSpec g start target c D
       | .cont qNew prevNew =>
          ∃ lvl2 q2New, qNew = q1 ++ q2New ∧
            BfsInv g start target lvl2 D q1 q2New prevNew ∧
            qNew.length + 2 * prev.length ≤
              (q1 ++ q2).length + 2 * prevNew.length) := by
  intro rest
  induction rest with
  | nil =>
    intro q2 lvl prev SI
    show (match ScanResult.cont (q1 ++ q2) prev with
      | .found c => FoundSpec g start target c D
      | .cont qNew prevNew =>
          ∃ lvl2 q2New, qNew = q1 ++ q2New ∧
            BfsInv g start target lvl2 D q1 q2New prevNew ∧
            qNew.length + 2 * prev.length ≤
              (q1 ++ q2).length + 2 * prevNew.length)
    exact ⟨lvl, q2, rfl, scanFinish SI, le_refl _⟩
  | cons u rest ih =>
    intro q2 lvl prev SI
    show (match (if (lookupPrev prev u).isSome then
        scanNbrs start target p rest (q1 ++ q2) prev
      else
        let prevNew : PrevMap := (u, some p) :: prev
        if u = target then
          ScanResult.found (walkBack prevNew start target prevNew.length)
        else
          scanNbrs start target p rest ((q1 ++ q2) ++ [u]) prevNew) with
      | .found c => FoundSpec g start target c D
      | .cont qNew prevNew =>
          ∃ lvl2 q2New, qNew = q1 ++ q2New ∧
            BfsInv g start target lvl2 D q1 q2New prevNew ∧
            qNew.length + 2 * prev.length ≤
              (q1 ++ q2).length + 2 * prevNew.length)
    by_cases hvis : (lookupPrev prev u).isSome
    · rw [if_pos hvis]
      have SIrest : ScanInv g start target p lvl D rest q1 q2 prev := by
        obtain ⟨f1, f2, f3, f4, f5, f6, f7, f8, f9, f10, f11, f12, f13,
          f14, f15, f16, f17, f18, f19, f20⟩ := SI
        refine ⟨fun v hv => f1 v (by simp [hv]), ?_, f3, f4, f5, f6, f7,
          f8, f9, f10, f11, f12, f13, f14, f15, f16, f17, f18, f19, f20⟩
        intro v hv hvr
        by_cases hvu : v = u
        · rw [hvu, ← lookupPrev_isSome_iff]
          exact hvis
        · exact f2 v hv (by simp [hvu, hvr])
      exact ih q2 lvl prev SIrest
    · rw [if_neg hvis]
      have hnew : lookupPrev prev u = none := by
        cases hl : lookupPrev prev u with
        | none => rfl
        | some v => rw [hl] at hvis; exact absurd rfl hvis
      by_cases hut : u = target
      · subst hut
        simp only [if_pos rfl]
        exact scanFound hst SI hnew
      · simp only [if_neg hut]
        have SIadd := scanAdd hst SI hnew hut
        have := ih (q2 ++ [u]) (fun c => if c = u then D + 1 else lvl c)
          ((u, some p) :: prev) SIadd
        have harr : q1 ++ (q2 ++ [u]) = (q1 ++ q2) ++ [u] := by
          rw [List.append_assoc]
        rw [harr] at this
        revert this
        cases hscan : scanNbrs start target p rest ((q1 ++ q2) ++ [u])
            ((u, some p) :: prev) with
        | found c => intro h; exact h
        | cont qNew prevNew =>
          intro h
          obtain ⟨lvl2, q2New, hq, hinv, hlen⟩ := h
          refine ⟨lvl2, q2New, hq, hinv, ?_⟩
          simp only [List.length_append, List.length_cons,
            List.length_nil] at hlen ⊢
          omega

lemma mem_allCells {g : Grid} {c : Cell} (h : inGrid g c) :
    c ∈ allCells g := by
  obtain ⟨h1, h2, h3, h4⟩ := h
  unfold allCells
  rw [Finset.mem_image]
  refine ⟨(c.1.toNat, c.2.toNat), ?_, ?_⟩
  · rw [Finset.mem_product, Finset.mem_range, Finset.mem_range]
    unfold gridN at h2 h4
    omega
  · have e1 : ((c.1.toNat : Int)) = c.1 := Int.toNat_of_nonneg h1
    have e2 : ((c.2.toNat : Int)) = c.2 := Int.toNat_of_nonneg h3
    simp [e1, e2]

lemma allCells_card {g : Grid} : (allCells g).card ≤ g.length * g.length := by
  unfold allCells
  calc ((Finset.range g.length ×ˢ Finset.range g.length).image
      (fun rc => ((rc.1 : Int), (rc.2 : Int)))).card
      ≤ (Finset.range g.length ×ˢ Finset.range g.length).card :=
        Finset.card_image_le
    _ = g.length * g.length := by
        rw [Finset.card_product, Finset.card_range]

/-- The parent map never holds more than one entry per cell of the grid
plus one for the start cell. -/
lemma BfsInv.keysBound {g : Grid} {start target : Cell} {lvl : Cell → Nat}
    {D : Nat} {q1 q2 : List Cell} {prev : PrevMap}
    (inv : BfsInv g start target lvl D q1 q2 prev) :
    prev.length ≤ g.length * g.length + 1 := by
  have hlen : (keysOf prev).length = prev.length := List.length_map _ _
  have hsub : (keysOf prev).toFinset ⊆ insert start (allCells g) := by
    intro c hc
    rw [List.mem_toFinset] at hc
    by_cases hcs : c = start
    · rw [hcs]; exact Finset.mem_insert_self _ _
    · exact Finset.mem_insert_of_mem
        (mem_allCells (inv.keysOpen c hc hcs).1)
  have hcard : (keysOf prev).toFinset.card = (keysOf prev).length :=
    List.toFinset_card_of_nodup inv.keysNodup
  have := Finset.card_le_card hsub
  have hins : (insert start (allCells g)).card ≤ (allCells g).card + 1 :=
    Finset.card_insert_le _ _
  have := allCells_card (g := g)
  omega

/-- When the queue has emptied, the visited set is closed under the
neighbor relation, so the target (never visited) is unreachable. -/
lemma BfsInv.closure {g : Grid} {start target : Cell} {lvl : Cell → Nat}
    {D : Nat} {q1 q2 : List Cell} {prev : PrevMap}
    (inv : BfsInv g start target lvl D q1 q2 prev)
    (hq : q1 ++ q2 = []) : ¬ Reaches g start target := by
  have hall : ∀ k c, WalkN g start k c → c ∈ keysOf prev := by
    intro k
    induction k with
    | zero =>
      intro c hc
      rw [← hc.zero_eq]
      exact lookupPrev_mem inv.startLook
    | succ k ih =>
      intro c hc
      obtain ⟨u, hu, he⟩ := hc.last_step
      have hmem := ih u hu
      have : u ∉ q1 ++ q2 := by rw [hq]; exact List.not_mem_nil u
      exact inv.procDone u hmem this c he
  rintro ⟨k, hk⟩
  exact inv.notFound (hall k target hk)

/-- Renormalization: when all level-`D` cells have been processed, the
queue holds only level-`D + 1` cells and the invariant shifts one level
up. -/
lemma BfsInv.renorm {g : Grid} {start target : Cell} {lvl : Cell → Nat}
    {D : Nat} {q2 : List Cell} {prev : PrevMap}
    (inv : BfsInv g start target lvl D [] q2 prev) :
    BfsInv g start target lvl (D + 1) q2 [] prev := by
  have hq : q2 ++ [] = [] ++ q2 := by simp
  refine ⟨inv.keysNodup, inv.startLook, inv.parentOk, inv.lvlStart,
    inv.hasWalk, inv.minLvl, ?_, ?_, ?_, ?_, inv.q2Lvl, ?_, inv.notFound,
    inv.lvlLt, inv.keysOpen⟩
  · intro c k hk hkD
    rcases Nat.lt_or_ge k (D + 1) with hlt | hge
    · exact inv.comp c k hk (by omega)
    · have hkeq : k = D + 1 := by omega
      subst hkeq
      obtain ⟨u, hu, he⟩ := hk.last_step
      have humem : u ∈ keysOf prev := inv.comp u D hu (le_refl D)
      have hunq : u ∉ [] ++ q2 := by
        intro h
        have := inv.q2Lvl u (by simpa using h)
        have := inv.minLvl u humem D hu
        omega
      exact inv.procDone u humem hunq c he
  · intro c hc
    rw [hq] at hc
    exact inv.qSub c hc
  · rw [hq]
    exact inv.qNodup
  · intro c hc hcq
    rw [hq] at hcq
    exact inv.procDone c hc hcq
  · intro c hc
    exact absurd hc (List.not_mem_nil c)

/-- Popping the head of the level-`D` segment yields the scan invariant
with the full neighbor list still to scan. -/
lemma BfsInv.pop {g : Grid} {start target : Cell} {lvl : Cell → Nat}
    {D : Nat} {p : Cell} {q1t q2 : List Cell} {prev : PrevMap}
    (inv : BfsInv g start target lvl D (p :: q1t) q2 prev) :
    ScanInv g start target p lvl D (neighbors p g) q1t q2 prev := by
  have hq : (p :: q1t) ++ q2 = p :: (q1t ++ q2) := rfl
  have hnodup := inv.qNodup
  rw [hq, List.nodup_cons] at hnodup
  refine ⟨fun u hu => hu, ?_, ?_, ?_, hnodup.1, inv.keysNodup,
    inv.startLook, inv.parentOk, inv.lvlStart, inv.hasWalk, inv.minLvl,
    inv.comp, ?_, hnodup.2, ?_, ?_, inv.q2Lvl, inv.notFound, inv.lvlLt,
    inv.keysOpen⟩
  · intro u hu hun
    exact absurd hu hun
  · exact inv.qSub p (by simp)
  · exact inv.q1Lvl p (by simp)
  · intro c hc
    exact inv.qSub c (by rw [hq]; exact List.mem_cons_of_mem p hc)
  · intro c hc hcq hcp
    refine inv.procDone c hc ?_
    rw [hq, List.mem_cons]
    rintro (h | h)
    · exact hcp h
    · exact hcq h
  · intro c hc
    exact inv.q1Lvl c (List.mem_cons_of_mem p hc)

/-- The invariant at loop entry. -/
lemma bfsInit {g : Grid} {start target : Cell} (hst : start ≠ target) :
    BfsInv g start target (fun _ => 0) 0 [start] [] [(start, none)] := by
  have hkeys : keysOf [(start, none)] = [start] := rfl
  refine ⟨?_, lookupPrev_cons_self, ?_, rfl, ?_, ?_, ?_, ?_, ?_, ?_, ?_,
    ?_, ?_, ?_, ?_⟩
  · rw [hkeys]; exact List.nodup_singleton start
  · intro c hc hcs
    rw [hkeys, List.mem_singleton] at hc
    exact absurd hc hcs
  · intro c hc
    rw [hkeys, List.mem_singleton] at hc
    rw [hc]
    exact .refl start
  · intro c hc k hk
    exact Nat.zero_le k
  · intro c k hk hk0
    have : k = 0 := by omega
    subst this
    rw [hkeys, List.mem_singleton]
    exact hk.zero_eq.symm
  · intro c hc
    rw [hkeys]
    simpa using hc
  · simpa using List.nodup_singleton start
  · intro c hc hcq
    exfalso
    rw [hkeys, List.mem_singleton] at hc
    exact hcq (by simp [hc])
  · intro c hc
    rfl
  · intro c hc
    exact absurd hc (List.not_mem_nil c)
  · rw [hkeys, List.mem_singleton]
    exact fun h => hst h.symm
  · intro c hc
    simp
  · intro c hc hcs
    rw [hkeys, List.mem_singleton] at hc
    exact absurd hc hcs

/-- Main correctness lemma for the BFS `while` loop: given the invariant
and enough fuel, a `none` result means the target is unreachable, and a
`some` result is a neighbor of `start` on a genuinely shortest path. -/
lemma bfsLoop_spec {g : Grid} {start target : Cell} (hst : start ≠ target) :
    ∀ (fuel : Nat) (lvl : Cell → Nat) (D : Nat) (q1 q2 : List Cell)
      (prev : PrevMap),
      BfsInv g start target lvl D q1 q2 prev →
      2 * (g.length * g.length + 1) + (q1 ++ q2).length ≤
        fuel + 2 * prev.length →
      ((bfsLoop g start target fuel (q1 ++ q2) prev = none →
          ¬ Reaches g start target) ∧
       (∀ c, bfsLoop g start target fuel (q1 ++ q2) prev = some c →
          c ∈ neighbors start g ∧
            ∃ d, distIs g start target (d + 1) ∧ distIs g c target d)) := by
  intro fuel
  induction fuel with
  | zero =>
    intro lvl D q1 q2 prev inv hfuel
    have hB := inv.keysBound
    have hq : q1 ++ q2 = [] := by
      have := List.length_eq_zero.mp (by omega : (q1 ++ q2).length = 0)
      exact this
    constructor
    · intro _
      exact inv.closure hq
    · intro c hc
      rw [show bfsLoop g start target 0 (q1 ++ q2) prev = none from rfl]
        at hc
      exact absurd hc (by simp)
  | succ fuel ih =>
    intro lvl D q1 q2 prev inv hfuel
    cases hq : q1 ++ q2 with
    | nil =>
      constructor
      · intro _
        exact inv.closure hq
      · intro c hc
        rw [show bfsLoop g start target (fuel + 1) [] prev = none from rfl]
          at hc
        exact absurd hc (by simp)
    | cons p qr =>
      rw [hq] at hfuel
      -- normalize so that the popped cell sits in the level-`D` segment
      have hnorm : ∃ (lvlN : Cell → Nat) (DN : Nat) (qA qB : List Cell),
          qA ++ qB = qr ∧
          ScanInv g start target p lvlN DN (neighbors p g) qA qB prev := by
        cases q1 with
        | nil =>
          rw [List.nil_append] at hq
          have inv2 := inv.renorm
          rw [hq] at inv2
          exact ⟨lvl, D + 1, qr, [], List.append_nil qr, inv2.pop⟩
        | cons a q1t =>
          have hap : a = p := by
            have : a :: (q1t ++ q2) = p :: qr := hq
            exact (List.cons.injEq a _ p _).mp this |>.1
          have hqt : q1t ++ q2 = qr := by
            have : a :: (q1t ++ q2) = p :: qr := hq
            exact (List.cons.injEq a _ p _).mp this |>.2
          subst hap
          exact ⟨lvl, D, q1t, q2, hqt, inv.pop⟩
      obtain ⟨lvlN, DN, qA, qB, hqAB, SI⟩ := hnorm
      have hgo := scanNbrs_go hst qA (neighbors p g) qB lvlN prev SI
      rw [hqAB] at hgo
      have hunf : bfsLoop g start target (fuel + 1) (p :: qr) prev =
          (match scanNbrs start target p (neighbors p g) qr prev with
           | .found c => some c
           | .cont qNew prevNew => bfsLoop g start target fuel qNew prevNew) :=
        rfl
      cases hscan : scanNbrs start target p (neighbors p g) qr prev with
      | found c =>
        rw [hscan] at hgo hunf
        constructor
        · intro hnone
          rw [hunf] at hnone
          exact absurd hnone (by simp)
        · intro c2 hc2
          rw [hunf] at hc2
          have hcc : c2 = c := by
            injection hc2 with h
            exact h.symm
          subst hcc
          obtain ⟨hnbr, hd1, hd2⟩ := hgo
          exact ⟨hnbr, DN, hd1, hd2⟩
      | cont qNew prevNew =>
        rw [hscan] at hgo hunf
        obtain ⟨lvl2, q2New, hqNew, inv2, hlen⟩ := hgo
        rw [hunf, hqNew]
        rw [hqNew] at hlen
        refine ih lvl2 DN qA q2New prevNew inv2 ?_
        simp only [List.length_append, List.length_cons] at hfuel hlen ⊢
        omega

lemma bfs_eq_self {g : Grid} {start target : Cell} (h : start = target) :
    bfs_first_step start target g = some start := by
  unfold bfs_first_step
  rw [if_pos h]

/-- The two loop-level facts specialized to the entry state of
`bfs_first_step`. -/
lemma bfs_loop_results {g : Grid} {start target : Cell}
    (hst : start ≠ target) :
    (bfs_first_step start target g = none → ¬ Reaches g start target) ∧
    (∀ c, bfs_first_step start target g = some c →
      c ∈ neighbors start g ∧
        ∃ d, distIs g start target (d + 1) ∧ distIs g c target d) := by
  have hinit := bfsInit (g := g) hst
  have hspec := bfsLoop_spec hst (2 * (g.length * g.length) + 1)
    (fun _ => 0) 0 [start] [] [(start, none)] hinit
    (by simp; omega)
  rw [List.append_nil] at hspec
  unfold bfs_first_step
  rw [if_neg hst]
  exact hspec

lemma bfs_some_spec {g : Grid} {start target c : Cell}
    (hst : start ≠ target) (hc : bfs_first_step start target g = some c) :
    c ∈ neighbors start g ∧
      ∃ d, distIs g start target (d + 1) ∧ distIs g c target d :=
  (bfs_loop_results hst).2 c hc

lemma bfs_unreach_none {g : Grid} {start target : Cell}
    (h : ¬ Reaches g start target) :
    bfs_first_step start target g = none := by
  have hst : start ≠ target := by
    intro he
    exact h ⟨0, he ▸ WalkN.refl start⟩
  cases hres : bfs_first_step start target g with
  | none => rfl
  | some c =>
    obtain ⟨_, d, ⟨hw, _⟩, _⟩ := bfs_some_spec hst hres
    exact absurd ⟨d + 1, hw⟩ h

lemma bfs_reach_some {g : Grid} {start target : Cell}
    (hst : start ≠ target) (h : Reaches g start target) :
    ∃ c, bfs_first_step start target g = some c := by
  cases hres : bfs_first_step start target g with
  | none => exact absurd h ((bfs_loop_results hst).1 hres)
  | some c => exact ⟨c, rfl⟩

/-- Any `some` result of the BFS is the start cell itself or an
in-bounds non-wall cell. -/
lemma bfs_some_open {g : Grid} {start target c : Cell}
    (hc : bfs_first_step start target g = some c) :
    c = start ∨ onOpen g c := by
  by_cases hst : start = target
  · left
    rw [bfs_eq_self hst] at hc
    injection hc with h
    exact h.symm
  · right
    exact mem_neighbors_onOpen (bfs_some_spec hst hc).1

/-! ### Lemmas about the AI turn loops -/

/-- Either a turn loop consumes no trap (stun 0, traps unchanged) or it
ends on a trap cell of the input set, stunned, with exactly that cell
erased — and takes no further steps (its final cell is the trap). -/
lemma aiALoop_cases (g : Grid) (player goal ai2 : Cell) :
    ∀ (n : Nat) (pos : Cell) (traps : Finset Cell),
      (let r := aiALoop g player goal ai2 n pos traps
       (r.2.1 = 0 ∧ r.2.2 = traps) ∨
         (r.1 ∈ traps ∧ r.2.1 = AI_STUN_TURNS ∧
           r.2.2 = traps.erase r.1 ∧ r.1 ∉ r.2.2)) := by
  intro n
  induction n with
  | zero => intro pos traps; exact Or.inl ⟨rfl, rfl⟩
  | succ n ih =>
    intro pos traps
    show (let r := (let step := aiAStep g player goal ai2 pos
        if step = ai2 then (pos, 0, traps)
        else if step ∈ traps then (step, AI_STUN_TURNS, traps.erase step)
        else aiALoop g player goal ai2 n step traps)
      (r.2.1 = 0 ∧ r.2.2 = traps) ∨
        (r.1 ∈ traps ∧ r.2.1 = AI_STUN_TURNS ∧
          r.2.2 = traps.erase r.1 ∧ r.1 ∉ r.2.2))
    by_cases h1 : aiAStep g player goal ai2 pos = ai2
    · simp only [h1, if_pos rfl]
      simp
    · simp only [if_neg h1]
      by_cases h2 : aiAStep g player goal ai2 pos ∈ traps
      · simp only [if_pos h2]
        exact Or.inr ⟨h2, by simp, by simp, Finset.not_mem_erase _ _⟩
      · simp only [if_neg h2]
        exact ih (aiAStep g player goal ai2 pos) traps

/-- Same shape for the secondary adversary's loop. -/
lemma aiBLoop_cases (g : Grid) (player aiP : Cell) :
    ∀ (n : Nat) (pos : Cell) (traps : Finset Cell),
      (let r := aiBLoop g player aiP n pos traps
       (r.2.1 = 0 ∧ r.2.2 = traps) ∨
         (r.1 ∈ traps ∧ r.2.1 = AI_STUN_TURNS ∧
           r.2.2 = traps.erase r.1 ∧ r.1 ∉ r.2.2)) := by
  intro n
  induction n with
  | zero => intro pos traps; exact Or.inl ⟨rfl, rfl⟩
  | succ n ih =>
    intro pos traps
    show (let r := (let best := greedyStepB g pos player aiP
        if best = aiP then (pos, 0, traps)
        else if best ∈ traps then (best, AI_STUN_TURNS, traps.erase best)
        else aiBLoop g player aiP n best traps)
      (r.2.1 = 0 ∧ r.2.2 = traps) ∨
        (r.1 ∈ traps ∧ r.2.1 = AI_STUN_TURNS ∧
          r.2.2 = traps.erase r.1 ∧ r.1 ∉ r.2.2))
    by_cases h1 : greedyStepB g pos player aiP = aiP
    · simp only [h1, if_pos rfl]
      simp
    · simp only [if_neg h1]
      by_cases h2 : greedyStepB g pos player aiP ∈ traps
      · simp only [if_pos h2]
        exact Or.inr ⟨h2, by simp, by simp, Finset.not_mem_erase _ _⟩
      · simp only [if_neg h2]
        exact ih (greedyStepB g pos player aiP) traps

/-- The primary adversary's loop never ends on the secondary's cell. -/
lemma aiALoop_ne (g : Grid) (player goal ai2 : Cell) :
    ∀ (n : Nat) (pos : Cell) (traps : Finset Cell), pos ≠ ai2 →
      (aiALoop g player goal ai2 n pos traps).1 ≠ ai2 := by
  intro n
  induction n with
  | zero => intro pos traps h; exact h
  | succ n ih =>
    intro pos traps h
    show (let step := aiAStep g player goal ai2 pos
      if step = ai2 then (pos, 0, traps)
      else if step ∈ traps then (step, AI_STUN_TURNS, traps.erase step)
      else aiALoop g player goal ai2 n step traps).1 ≠ ai2
    by_cases h1 : aiAStep g player goal ai2 pos = ai2
    · simp only [h1, if_pos rfl]
      exact h
    · simp only [if_neg h1]
      by_cases h2 : aiAStep g player goal ai2 pos ∈ traps
      · simp only [if_pos h2]
        exact h1
      · simp only [if_neg h2]
        exact ih (aiAStep g player goal ai2 pos) traps h1

/-- The secondary adversary's loop never ends on the primary's cell. -/
lemma aiBLoop_ne (g : Grid) (player aiP : Cell) :
    ∀ (n : Nat) (pos : Cell) (traps : Finset Cell), pos ≠ aiP →
      (aiBLoop g player aiP n pos traps).1 ≠ aiP := by
  intro n
  induction n with
  | zero => intro pos traps h; exact h
  | succ n ih =>
    intro pos traps h
    show (let best := greedyStepB g pos player aiP
      if best = aiP then (pos, 0, traps)
      else if best ∈ traps then (best, AI_STUN_TURNS, traps.erase best)
      else aiBLoop g player aiP n best traps).1 ≠ aiP
    by_cases h1 : greedyStepB g pos player aiP = aiP
    · simp only [h1, if_pos rfl]
      exact h
    · simp only [if_neg h1]
      by_cases h2 : greedyStepB g pos player aiP ∈ traps
      · simp only [if_pos h2]
        exact h1
      · simp only [if_neg h2]
        exact ih (greedyStepB g pos player aiP) traps h1

lemma in_bounds_inGrid {g : Grid} (hg : g.length = 9) {p : Cell}
    (h : in_bounds p) : inGrid g p := by
  obtain ⟨h1, h2, h3, h4⟩ := h
  unfold inGrid gridN
  rw [hg]
  exact ⟨h1, h2, h3, h4⟩

/-- A fold step of either greedy scan keeps the accumulator on an open
cell (given a 9-by-9 grid). -/
lemma greedyFold_open {g : Grid} (hg : g.length = 9) (tgt other : Cell) :
    ∀ (l : List Dir) (pos : Cell) (acc : Cell × Int), onOpen g acc.1 →
      onOpen g ((l.foldl
        (fun (acc : Cell × Int) d =>
          let cand := stepCell pos d
          if in_bounds cand ∧ tileAt g cand ≠ WALL ∧ cand ≠ other then
            let dd := manhattan cand tgt
            if dd < acc.2 then (cand, dd) else acc
          else acc) acc)).1 := by
  intro l
  induction l with
  | nil => intro pos acc h; exact h
  | cons d rest ih =>
    intro pos acc h
    simp only [List.foldl_cons]
    by_cases h1 : in_bounds (stepCell pos d) ∧
        tileAt g (stepCell pos d) ≠ WALL ∧ stepCell pos d ≠ other
    · simp only [if_pos h1]
      by_cases h2 : manhattan (stepCell pos d) tgt < acc.2
      · simp only [if_pos h2]
        exact ih pos _ ⟨in_bounds_inGrid hg h1.1, h1.2.1⟩
      · simp only [if_neg h2]
        exact ih pos acc h
    · simp only [if_neg h1]
      exact ih pos acc h

lemma greedyStepA_open {g : Grid} (hg : g.length = 9)
    {pos : Cell} (tgt ai2 : Cell) (h : onOpen g pos) :
    onOpen g (greedyStepA g pos tgt ai2) :=
  greedyFold_open hg tgt ai2 DIRS pos (pos, 1000000000) h

lemma greedyStepB_open {g : Grid} (hg : g.length = 9)
    {pos : Cell} (player aiP : Cell) (h : onOpen g pos) :
    onOpen g (greedyStepB g pos player aiP) :=
  greedyFold_open hg player aiP DIRS pos (pos, manhattan pos player) h

lemma aiAStep_open {g : Grid} (hg : g.length = 9)
    {pos : Cell} (player goal ai2 : Cell) (h : onOpen g pos) :
    onOpen g (aiAStep g player goal ai2 pos) := by
  have hrw : aiAStep g player goal ai2 pos =
      (match bfs_first_step pos ((bfs_first_step player goal g).getD player) g
        with
       | some s => s
       | none =>
          greedyStepA g pos ((bfs_first_step player goal g).getD player) ai2) :=
    rfl
  rw [hrw]
  cases hb : bfs_first_step pos ((bfs_first_step player goal g).getD player) g
    with
  | none =>
    exact greedyStepA_open hg _ ai2 h
  | some s =>
    rcases bfs_some_open hb with hs | hs
    · rw [hs]; exact h
    · exact hs

lemma aiALoop_open {g : Grid} (hg : g.length = 9) (player goal ai2 : Cell) :
    ∀ (n : Nat) (pos : Cell) (traps : Finset Cell), onOpen g pos →
      onOpen g (aiALoop g player goal ai2 n pos traps).1 := by
  intro n
  induction n with
  | zero => intro pos traps h; exact h
  | succ n ih =>
    intro pos traps h
    show onOpen g (let step := aiAStep g player goal ai2 pos
      if step = ai2 then (pos, 0, traps)
      else if step ∈ traps then (step, AI_STUN_TURNS, traps.erase step)
      else aiALoop g player goal ai2 n step traps).1
    have hstep := aiAStep_open hg player goal ai2 h
    by_cases h1 : aiAStep g player goal ai2 pos = ai2
    · simp only [h1, if_pos rfl]; exact h
    · simp only [if_neg h1]
      by_cases h2 : aiAStep g player goal ai2 pos ∈ traps
      · simp only [if_pos h2]; exact hstep
      · simp only [if_neg h2]
        exact ih _ traps hstep

/-- Guarded folds over the direction list are folds over the filtered
candidate list. -/
lemma foldl_guard_filter (P : Cell → Prop) [DecidablePred P]
    (f : Cell × Int → Cell → Cell × Int) (m : Dir → Cell) :
    ∀ (l : List Dir) (acc : Cell × Int),
      l.foldl (fun acc d => if P (m d) then f acc (m d) else acc) acc =
        ((l.map m).filter (fun c => decide (P c))).foldl f acc := by
  intro l
  induction l with
  | nil => intro acc; rfl
  | cons d rest ih =>
    intro acc
    simp only [List.foldl_cons, List.map_cons, List.filter_cons]
    by_cases h : P (m d)
    · rw [if_pos h]
      simp only [decide_eq_true_eq, h, if_pos]
      rw [List.foldl_cons]
      exact ih (f acc (m d))
    · rw [if_neg h]
      simp only [decide_eq_true_eq, h, if_neg, if_false]
      exact ih acc

/-- The secondary adversary's greedy scan is the strict-argmin fold over
its legal candidate list. -/
lemma greedyStepB_eq_filterFold (g : Grid) (pos player aiP : Cell) :
    greedyStepB g pos player aiP =
      ((candListB g pos aiP).foldl
        (fun (acc : Cell × Int) c =>
          if manhattan c player < acc.2 then (c, manhattan c player) else acc)
        (pos, manhattan pos player)).1 := by
  unfold greedyStepB candListB
  rw [foldl_guard_filter
    (fun c => in_bounds c ∧ tileAt g c ≠ WALL ∧ c ≠ aiP)
    (fun acc c =>
      if manhattan c player < acc.2 then (c, manhattan c player) else acc)
    (fun d => stepCell pos d) DIRS (pos, manhattan pos player)]

/-- Characterization of the strict-argmin fold: either no candidate
strictly beats the starting cell's distance and the fold keeps the
starting cell, or the fold returns the first candidate (in list order)
achieving the minimum candidate distance, which is strictly below the
starting cell's distance. -/
lemma argminFold_spec (player : Cell) :
    ∀ (l : List Cell) (b : Cell),
      (let r := (l.foldl (fun (acc : Cell × Int) c =>
          if manhattan c player < acc.2 then (c, manhattan c player) else acc)
          (b, manhattan b player)).1
       (r = b ∧ ∀ c ∈ l, manhattan b player ≤ manhattan c player) ∨
         (r ∈ l ∧ manhattan r player < manhattan b player ∧
           (∀ c ∈ l, manhattan r player ≤ manhattan c player) ∧
           l.find? (fun c => decide (manhattan c player ≤ manhattan r player))
             = some r)) := by
  intro l
  induction l with
  | nil =>
    intro b
    exact Or.inl ⟨rfl, by simp⟩
  | cons a rest ih =>
    intro b
    simp only [List.foldl_cons]
    by_cases h : manhattan a player < manhattan b player
    · simp only [if_pos h]
      rcases ih a with ⟨hr, hmin⟩ | ⟨hmem, hlt, hmin, hfind⟩
      · refine Or.inr ⟨?_, ?_, ?_, ?_⟩
        · rw [hr]; exact List.mem_cons_self a rest
        · rw [hr]; exact h
        · intro c hc
          rw [hr]
          rcases List.mem_cons.mp hc with hc | hc
          · rw [hc]
          · exact hmin c hc
        · rw [hr]
          exact List.find?_cons_of_pos rest (by simp)
      · refine Or.inr ⟨List.mem_cons_of_mem a hmem, by omega, ?_, ?_⟩
        · intro c hc
          rcases List.mem_cons.mp hc with hc | hc
          · rw [hc]; omega
          · exact hmin c hc
        · rw [List.find?_cons_of_neg rest (by simp; omega)]
          exact hfind
    · simp only [if_neg h]
      rcases ih b with ⟨hr, hmin⟩ | ⟨hmem, hlt, hmin, hfind⟩
      · refine Or.inl ⟨hr, ?_⟩
        intro c hc
        rcases List.mem_cons.mp hc with hc | hc
        · rw [hc]; omega
        · exact hmin c hc
      · refine Or.inr ⟨List.mem_cons_of_mem a hmem, hlt, ?_, ?_⟩
        · intro c hc
          rcases List.mem_cons.mp hc with hc | hc
          · rw [hc]; omega
          · exact hmin c hc
        · rw [List.find?_cons_of_neg rest (by simp; omega)]
          exact hfind

lemma aiBLoop_open {g : Grid} (hg : g.length = 9) (player aiP : Cell) :
    ∀ (n : Nat) (pos : Cell) (traps : Finset Cell), onOpen g pos →
      onOpen g (aiBLoop g player aiP n pos traps).1 := by
  intro n
  induction n with
  | zero => intro pos traps h; exact h
  | succ n ih =>
    intro pos traps h
    show onOpen g (let best := greedyStepB g pos player aiP
      if best = aiP then (pos, 0, traps)
      else if best ∈ traps then (best, AI_STUN_TURNS, traps.erase best)
      else aiBLoop g player aiP n best traps).1
    have hstep := greedyStepB_open hg player aiP h
    by_cases h1 : greedyStepB g pos player aiP = aiP
    · simp only [h1, if_pos rfl]; exact h
    · simp only [if_neg h1]
      by_cases h2 : greedyStepB g pos player aiP ∈ traps
      · simp only [if_pos h2]; exact hstep
      · simp only [if_neg h2]
        exact ih _ traps hstep

/-- A reachable cell is the source itself or an in-bounds cell. -/
lemma reaches_inGrid {g : Grid} {s t : Cell} (h : Reaches g s t) :
    t = s ∨ inGrid g t := by
  obtain ⟨k, w⟩ := h
  cases w with
  | refl => exact Or.inl rfl
  | step w e => exact Or.inr (mem_neighbors e).1

/-- Unfolding the score-accumulation fold into a pointwise sum. -/
lemma predictFold_sum (tm : List Dir) (model : List Dir → Dir → ℚ) :
    ∀ (ks : List Nat) (f : Dir → ℚ) (d : Dir),
      (ks.foldl (fun f k =>
        if k ≤ tm.length then
          fun d => f d + model (lastK tm k) d
        else f) f) d =
      f d + (ks.map (fun k =>
        if k ≤ tm.length then model (lastK tm k) d else 0)).sum := by
  intro ks
  induction ks with
  | nil => intro f d; simp
  | cons k rest ih =>
    intro f d
    simp only [List.foldl_cons, List.map_cons, List.sum_cons]
    by_cases h : k ≤ tm.length
    · simp only [if_pos h]
      rw [ih]
      ring
    · simp only [if_neg h]
      rw [ih]
      ring

/-- Unfolding one terminal step of the session loop. -/
lemma sessionLoop_cons_inr {model : List Dir → Dir → ℚ}
    {gc : Dir → ℚ} {i : Input} {rest : List Input} {s : GameState}
    {store : List SessionRecord} {mv : List Dir} {res : GameResult}
    {st : Nat} (ht : sessionTurn model gc i s = .inr (mv, res, st)) :
    sessionLoop model gc (i :: rest) s store =
      (save_game store mv res st, some res) := by
  show (match sessionTurn model gc i s with
    | .inr (mv, res, st) => (save_game store mv res st, some res)
    | .inl s3 => sessionLoop model gc rest s3 store) =
      (save_game store mv res st, some res)
  rw [ht]

/-- Unfolding one non-terminal step of the session loop. -/
lemma sessionLoop_cons_inl {model : List Dir → Dir → ℚ}
    {gc : Dir → ℚ} {i : Input} {rest : List Input} {s : GameState}
    {store : List SessionRecord} {s3 : GameState}
    (ht : sessionTurn model gc i s = .inl s3) :
    sessionLoop model gc (i :: rest) s store =
      sessionLoop model gc rest s3 store := by
  show (match sessionTurn model gc i s with
    | .inr (mv, res, st) => (save_game store mv res st, some res)
    | .inl s3 => sessionLoop model gc rest s3 store) =
      sessionLoop model gc rest s3 store
  rw [ht]

/-! ### The claims -/

/-- C1: for every grid and cells `start`, `target`: `bfs_first_step`
returns `start` itself when `start = target`; when `target` is reachable
from `start` it returns a cell orthogonally adjacent to `start` lying on
a shortest path to `target` (its length equal to the true BFS
shortest-path distance); and when `target` is unreachable from `start`
(in particular when `target` is a wall, which no walk can enter) it
returns `none`. -/
theorem claim_C1_bfs_first_step (g : Grid) (start target : Cell) :
    (start = target → bfs_first_step start target g = some start) ∧
    (start ≠ target → Reaches g start target →
      ∃ c d, bfs_first_step start target g = some c ∧
        c ∈ neighbors start g ∧ distIs g start target (d + 1) ∧
        distIs g c target d) ∧
    (¬ Reaches g start target → bfs_first_step start target g = none) := by
  refine ⟨bfs_eq_self, ?_, bfs_unreach_none⟩
  intro hst hreach
  obtain ⟨c, hc⟩ := bfs_reach_some hst hreach
  obtain ⟨hnbr, d, h1, h2⟩ := bfs_some_spec hst hc
  exact ⟨c, d, hc, hnbr, h1, h2⟩

/-- Witness for C1: on the open 2-by-2 grid, the diagonally opposite
cell is reached via the first step the BFS returns, at the true
distance 2; an out-of-bounds cell is unreachable and yields `none`. -/
theorem claim_C1_witness :
    (((0, 0) : Cell) ≠ ((1, 1) : Cell) ∧ Reaches grid2 (0, 0) (1, 1) ∧
      ∃ c d, bfs_first_step (0, 0) (1, 1) grid2 = some c ∧
        c ∈ neighbors (0, 0) grid2 ∧ distIs grid2 (0, 0) (1, 1) (d + 1) ∧
        distIs grid2 c (1, 1) d) ∧
    (¬ Reaches grid2 (0, 0) (5, 5) ∧
      bfs_first_step (0, 0) (5, 5) grid2 = none) := by
  have h1 : ((1, 0) : Cell) ∈ neighbors (0, 0) grid2 := by decide
  have h2 : ((1, 1) : Cell) ∈ neighbors (1, 0) grid2 := by decide
  have hreach : Reaches grid2 (0, 0) (1, 1) :=
    ⟨2, .step (.step (.refl (0, 0)) h1) h2⟩
  have hunreach : ¬ Reaches grid2 (0, 0) (5, 5) := by
    intro h
    rcases reaches_inGrid h with h | h
    · exact absurd h (by decide)
    · exact absurd h (by decide)
  exact ⟨⟨by decide, hreach,
      (claim_C1_bfs_first_step grid2 (0, 0) (1, 1)).2.1 (by decide) hreach⟩,
    hunreach, (claim_C1_bfs_first_step grid2 (0, 0) (5, 5)).2.2 hunreach⟩

/-- C2 counterexample: the claim as stated — that for some fixed grid,
positions, traps, stun state and session moves two different prediction
models yield different primary-agent moves — is false: `ai_a_turn` never
reads its model or global-count arguments, so its result is identical
for any two models. -/
theorem claim_C2_counterexample : ¬ TwoRunModelDependence := by
  rintro ⟨g, ai, player, goal, ai2, traps, tm, stunned, m1, m2, gc1, gc2, h⟩
  exact h rfl

/-- C2 (amended): the primary adversary's per-turn movement decision is
independent of the prediction model: for every grid, positions, traps,
stun state and session moves, any two prediction models (and any two
session-move lists) yield the same `ai_a_turn` outcome, because the
model parameters are never read. -/
theorem claim_C2_model_independent (g : Grid) (ai player goal ai2 : Cell)
    (traps : Finset Cell) (tm1 tm2 : List Dir) (stunned : Nat)
    (m1 m2 : List Dir → Dir → ℚ) (gc1 gc2 : Dir → ℚ) :
    ai_a_turn ai player g traps tm1 m1 gc1 stunned goal ai2 =
      ai_a_turn ai player g traps tm2 m2 gc2 stunned goal ai2 := rfl

/-- C3: an armed trap is consumed exactly once.  In an active turn the
primary adversary either consumes no trap (stun stays 0, traps
unchanged) or ends exactly on a trap cell of the input set, with stun
`AI_STUN_TURNS`, that cell erased, and no further steps taken; the
secondary adversary behaves the same on the resulting set; and when both
are stunned this turn, the secondary's cell is a different cell (the
consumed cell is gone from the set). -/
theorem claim_C3_trap_consumed_once (g : Grid)
    (ai player goal ai2 : Cell) (traps : Finset Cell) (tm : List Dir)
    (model : List Dir → Dir → ℚ) (gc : Dir → ℚ)
    (a b : Cell × Nat × Finset Cell)
    (ha : a = ai_a_turn ai player g traps tm model gc 0 goal ai2)
    (hb : b = ai_b_turn ai2 player g a.2.2 0 a.1) :
    ((a.2.1 = 0 ∧ a.2.2 = traps) ∨
       (a.1 ∈ traps ∧ a.2.1 = AI_STUN_TURNS ∧ a.2.2 = traps.erase a.1 ∧
         a.1 ∉ a.2.2)) ∧
    ((b.2.1 = 0 ∧ b.2.2 = a.2.2) ∨
       (b.1 ∈ a.2.2 ∧ b.2.1 = AI_STUN_TURNS ∧ b.2.2 = a.2.2.erase b.1 ∧
         b.1 ∉ b.2.2)) ∧
    (a.2.1 ≠ 0 → b.2.1 ≠ 0 → b.1 ≠ a.1) := by
  have ha2 : a = aiALoop g player goal ai2
      (if manhattan ai player > CLOSE_RANGE + 2 then 2 else 1) ai
      traps := by
    rw [ha]
    show (if 0 > 0 then _ else _ : Cell × Nat × Finset Cell) = _
    rw [if_neg (by omega)]
  have hb2 : b = aiBLoop g player a.1
      (if manhattan ai2 player > CLOSE_RANGE + 2 then 2 else 1) ai2
      a.2.2 := by
    rw [hb]
    show (if 0 > 0 then _ else _ : Cell × Nat × Finset Cell) = _
    rw [if_neg (by omega)]
  have hA := aiALoop_cases g player goal ai2
    (if manhattan ai player > CLOSE_RANGE + 2 then 2 else 1) ai traps
  rw [← ha2] at hA
  have hB := aiBLoop_cases g player a.1
    (if manhattan ai2 player > CLOSE_RANGE + 2 then 2 else 1) ai2 a.2.2
  rw [← hb2] at hB
  refine ⟨hA, hB, ?_⟩
  intro hsa hsb
  rcases hA with ⟨hA0, _⟩ | ⟨hAmem, _, hAer, hAnot⟩
  · exact absurd hA0 hsa
  · rcases hB with ⟨hB0, _⟩ | ⟨hBmem, _, _, _⟩
    · exact absurd hB0 hsb
    · intro he
      rw [he] at hBmem
      exact hAnot hBmem

/-- Witness for C3: on the empty grid, the primary adversary walks onto
the trap at `(0, 3)` and consumes it; the secondary then steps onto the
trap at `(7, 8)`; the two consumed cells differ. -/
theorem claim_C3_witness :
    c3A.2.1 ≠ 0 ∧ c3B.2.1 ≠ 0 ∧ c3B.1 ≠ c3A.1 := by
  have h := claim_C3_trap_consumed_once emptyGrid9 (0, 5) (0, 0) (0, 1)
    (8, 8) ({(0, 3), (7, 8)} : Finset Cell) [] (fun _ _ => 0)
    (fun _ => 0) c3A c3B rfl rfl
  exact ⟨by decide, by decide, h.2.2 (by decide) (by decide)⟩

/-- C4: for every session, exactly one record is appended to the store,
on the terminal transition: whenever the session loop ends with a result
(win, loss, or quit), the final store is the input store with exactly
one record of that result appended (length grows by exactly one); when
the input stream ends with the game still running, the store is
untouched. -/
theorem claim_C4_one_record_per_session (model : List Dir → Dir → ℚ)
    (gc : Dir → ℚ) :
    ∀ (inputs : List Input) (s : GameState) (store : List SessionRecord),
      (∀ r, (sessionLoop model gc inputs s store).2 = some r →
        ∃ rec : SessionRecord, rec.result = r ∧
          (sessionLoop model gc inputs s store).1 = store ++ [rec] ∧
          (sessionLoop model gc inputs s store).1.length =
            store.length + 1) ∧
      ((sessionLoop model gc inputs s store).2 = none →
        (sessionLoop model gc inputs s store).1 = store) := by
  intro inputs
  induction inputs with
  | nil =>
    intro s store
    constructor
    · intro r hr
      exact absurd hr (by simp [sessionLoop])
    · intro _
      rfl
  | cons i rest ih =>
    intro s store
    cases ht : sessionTurn model gc i s with
    | inr t =>
      obtain ⟨mv, res, st⟩ := t
      rw [sessionLoop_cons_inr ht]
      constructor
      · intro r hr
        have hres : res = r := by
          have hx : some res = some r := hr
          injection hx
        subst hres
        refine ⟨⟨mv, res, GRID_SIZE, st⟩, rfl, rfl, ?_⟩
        show (save_game store mv res st).length = store.length + 1
        unfold save_game
        rw [List.length_append]
        rfl
      · intro hnone
        exact absurd hnone (by simp)
    | inl s3 =>
      rw [sessionLoop_cons_inl ht]
      exact ih s3 store

/-- Witness for C4: one concrete session per terminal transition (quit,
win, loss), each appending exactly one record of the right result to an
empty store. -/
theorem claim_C4_witness :
    ((sessionLoop (fun _ _ => 0) (fun _ => 0) [Input.quit] demoState
        []).2 = some GameResult.quit ∧
      ∃ rec : SessionRecord, rec.result = GameResult.quit ∧
        (sessionLoop (fun _ _ => 0) (fun _ => 0) [Input.quit] demoState
          []).1 = [] ++ [rec] ∧
        (sessionLoop (fun _ _ => 0) (fun _ => 0) [Input.quit] demoState
          []).1.length = ([] : List SessionRecord).length + 1) ∧
    ((sessionLoop (fun _ _ => 0) (fun _ => 0) [Input.move .east] demoState
        []).2 = some GameResult.win ∧
      ∃ rec : SessionRecord, rec.result = GameResult.win ∧
        (sessionLoop (fun _ _ => 0) (fun _ => 0) [Input.move .east]
          demoState []).1 = [] ++ [rec] ∧
        (sessionLoop (fun _ _ => 0) (fun _ => 0) [Input.move .east]
          demoState []).1.length = ([] : List SessionRecord).length + 1) ∧
    ((sessionLoop (fun _ _ => 0) (fun _ => 0) [Input.other] demoLossState
        []).2 = some GameResult.loss ∧
      ∃ rec : SessionRecord, rec.result = GameResult.loss ∧
        (sessionLoop (fun _ _ => 0) (fun _ => 0) [Input.other]
          demoLossState []).1 = [] ++ [rec] ∧
        (sessionLoop (fun _ _ => 0) (fun _ => 0) [Input.other]
          demoLossState []).1.length = ([] : List SessionRecord).length + 1) :=
  ⟨⟨rfl, (claim_C4_one_record_per_session (fun _ _ => 0) (fun _ => 0)
      [Input.quit] demoState []).1 GameResult.quit rfl⟩,
   ⟨rfl, (claim_C4_one_record_per_session (fun _ _ => 0) (fun _ => 0)
      [Input.move .east] demoState []).1 GameResult.win rfl⟩,
   ⟨rfl, (claim_C4_one_record_per_session (fun _ _ => 0) (fun _ => 0)
      [Input.other] demoLossState []).1 GameResult.loss rfl⟩⟩

/-- C5: in dual-agent mode, after the primary adversary's turn followed
by the secondary's, the two adversaries never occupy the same cell:
starting from distinct positions, the primary never ends on the
secondary's current cell, and the secondary never ends on the primary's
post-move cell. -/
theorem claim_C5_no_collision (g : Grid) (ai player goal ai2 : Cell)
    (traps : Finset Cell) (tm : List Dir) (model : List Dir → Dir → ℚ)
    (gc : Dir → ℚ) (stunA stunB : Nat) (h : ai ≠ ai2) :
    (let a := ai_a_turn ai player g traps tm model gc stunA goal ai2
     a.1 ≠ ai2 ∧ (ai_b_turn ai2 player g a.2.2 stunB a.1).1 ≠ a.1) := by
  have hA : (ai_a_turn ai player g traps tm model gc stunA goal ai2).1 ≠
      ai2 := by
    by_cases hs : stunA > 0
    · show (if stunA > 0 then _ else _ : Cell × Nat × Finset Cell).1 ≠ ai2
      rw [if_pos hs]
      exact h
    · show (if stunA > 0 then _ else _ : Cell × Nat × Finset Cell).1 ≠ ai2
      rw [if_neg hs]
      exact aiALoop_ne g player goal ai2 _ ai traps h
  refine ⟨hA, ?_⟩
  by_cases hs : stunB > 0
  · show (if stunB > 0 then _ else _ : Cell × Nat × Finset Cell).1 ≠ _
    rw [if_pos hs]
    exact fun he => hA he.symm
  · show (if stunB > 0 then _ else _ : Cell × Nat × Finset Cell).1 ≠ _
    rw [if_neg hs]
    exact aiBLoop_ne g player _ _ ai2 _ (fun he => hA he.symm)

/-- Witness for C5: a concrete active turn of both adversaries from
distinct cells ends on distinct cells. -/
theorem claim_C5_witness :
    (((0, 2) : Cell) ≠ ((8, 8) : Cell)) ∧
    (let a := ai_a_turn (0, 2) (0, 0) emptyGrid9 ∅ [] (fun _ _ => 0)
        (fun _ => 0) 0 (0, 1) (8, 8)
     a.1 ≠ (8, 8) ∧
       (ai_b_turn (8, 8) (0, 0) emptyGrid9 a.2.2 0 a.1).1 ≠ a.1) :=
  ⟨by decide,
    claim_C5_no_collision emptyGrid9 (0, 2) (0, 0) (0, 1) (8, 8) ∅ []
      (fun _ _ => 0) (fun _ => 0) 0 0 (by decide)⟩

/-- C6 counterexample: with a wall at `(0, 1)`, the secondary adversary
at `(0, 0)` hunting a player at `(0, 3)` has exactly one legal candidate
`(1, 0)` — which therefore minimizes the Manhattan distance among the
candidates — yet its turn ends at `(0, 0)`, a cell that is not among the
candidates at all, because no candidate strictly improves on the current
cell's distance. -/
theorem claim_C6_counterexample :
    (ai_b_turn (0, 0) (0, 3) wallGrid9 ∅ 0 (8, 8)).1 = (0, 0) ∧
    candListB wallGrid9 (0, 0) (8, 8) = [(1, 0)] ∧
    ((0, 0) : Cell) ∉ candListB wallGrid9 (0, 0) (8, 8) ∧
    (∀ c ∈ candListB wallGrid9 (0, 0) (8, 8),
      manhattan (1, 0) (0, 3) ≤ manhattan c (0, 3)) :=
  ⟨by decide, by decide, by decide, by decide⟩

/-- C6 (amended): at each budgeted step the secondary adversary compares
the in-bounds non-wall candidates not occupied by the primary adversary
against staying put: it moves to the first candidate (in the fixed
direction order) achieving the minimum candidate Manhattan distance to
the player's current cell provided that distance is strictly smaller
than its own current distance, and otherwise stays in place; each
budgeted step of its loop uses exactly this greedy choice (no
interception, no prediction model). -/
theorem claim_C6_secondary_greedy (g : Grid) (pos player aiP : Cell) :
    ((greedyStepB g pos player aiP = pos ∧
       ∀ c ∈ candListB g pos aiP,
         manhattan pos player ≤ manhattan c player) ∨
     (greedyStepB g pos player aiP ∈ candListB g pos aiP ∧
       manhattan (greedyStepB g pos player aiP) player <
         manhattan pos player ∧
       (∀ c ∈ candListB g pos aiP,
         manhattan (greedyStepB g pos player aiP) player ≤
           manhattan c player) ∧
       (candListB g pos aiP).find?
         (fun c => decide (manhattan c player ≤
           manhattan (greedyStepB g pos player aiP) player)) =
             some (greedyStepB g pos player aiP))) ∧
    (∀ (n : Nat) (traps : Finset Cell),
      aiBLoop g player aiP (n + 1) pos traps =
        (if greedyStepB g pos player aiP = aiP then (pos, 0, traps)
         else if greedyStepB g pos player aiP ∈ traps then
           (greedyStepB g pos player aiP, AI_STUN_TURNS,
             traps.erase (greedyStepB g pos player aiP))
         else aiBLoop g player aiP n (greedyStepB g pos player aiP)
           traps)) := by
  constructor
  · rw [greedyStepB_eq_filterFold g pos player aiP]
    exact argminFold_spec player (candListB g pos aiP) pos
  · intro n traps
    rfl

/-- C7: the prediction scores every direction as the sum of the
matching-context counts (context lengths from `order` down to 1, when
enough session moves exist, added cumulatively), plus half the global
count, plus the recency weight times the count among the session's last
8 moves, plus the fuzz constant; with the model built from an empty
history and no session moves, every direction's score is exactly the
(positive) fuzz constant, giving equal mass under proportional
sampling. -/
theorem claim_C7_predict_scores :
    (∀ (tm : List Dir) (model : List Dir → Dir → ℚ) (gc : Dir → ℚ)
      (order : Nat) (d : Dir),
      predictScores tm model gc order d =
        ((List.range' 1 order).map (fun k =>
          if k ≤ tm.length then model (lastK tm k) d else 0)).sum +
        1 / 2 * gc d + RECENCY_WEIGHT * (countD (lastK tm 8) d : ℚ) +
        PREDICT_FUZZ) ∧
    (∀ d : Dir,
      predictScores [] (build_markov_model [] MARKOV_ORDER).1
        (build_markov_model [] MARKOV_ORDER).2 MARKOV_ORDER d =
          PREDICT_FUZZ) ∧
    (0 : ℚ) < PREDICT_FUZZ := by
  have hmain : ∀ (tm : List Dir) (model : List Dir → Dir → ℚ)
      (gc : Dir → ℚ) (order : Nat) (d : Dir),
      predictScores tm model gc order d =
        ((List.range' 1 order).map (fun k =>
          if k ≤ tm.length then model (lastK tm k) d else 0)).sum +
        1 / 2 * gc d + RECENCY_WEIGHT * (countD (lastK tm 8) d : ℚ) +
        PREDICT_FUZZ := by
    intro tm model gc order d
    show ((List.range' 1 order).reverse.foldl
        (fun f k =>
          if k ≤ tm.length then
            fun d => f d + model (lastK tm k) d
          else f) (fun _ => 0)) d +
        1 / 2 * gc d +
        RECENCY_WEIGHT * ((countD (lastK tm 8) d : ℚ)) + PREDICT_FUZZ = _
    rw [predictFold_sum tm model (List.range' 1 order).reverse
      (fun _ => 0) d]
    rw [List.map_reverse, List.sum_reverse]
    ring
  refine ⟨hmain, ?_, by norm_num [PREDICT_FUZZ]⟩
  intro d
  rw [hmain]
  have h1 : ((List.range' 1 MARKOV_ORDER).map (fun k =>
      if k ≤ ([] : List Dir).length
      then (build_markov_model [] MARKOV_ORDER).1 (lastK [] k) d
      else 0)).sum = 0 := by
    have h0 : List.range' 1 MARKOV_ORDER = [1, 2] := rfl
    rw [h0]
    simp
  rw [h1]
  have h2 : (build_markov_model [] MARKOV_ORDER).2 d = 0 := rfl
  rw [h2]
  have h3 : countD (lastK [] 8) d = 0 := rfl
  rw [h3]
  push_cast
  ring

/-- C8: a stunned adversary's turn leaves its position unchanged,
decrements its stun counter by exactly one, and consumes no trap nor
modifies any other state (the trap set is returned untouched). -/
theorem claim_C8_stunned_turn (g : Grid) (ai player goal ai2 aiP : Cell)
    (traps : Finset Cell) (tm : List Dir) (model : List Dir → Dir → ℚ)
    (gc : Dir → ℚ) (stunA stunB : Nat) (hA : 0 < stunA) (hB : 0 < stunB) :
    ai_a_turn ai player g traps tm model gc stunA goal ai2 =
      (ai, stunA - 1, traps) ∧
    ai_b_turn ai2 player g traps stunB aiP = (ai2, stunB - 1, traps) := by
  constructor
  · show (if stunA > 0 then _ else _ : Cell × Nat × Finset Cell) = _
    rw [if_pos hA]
  · show (if stunB > 0 then _ else _ : Cell × Nat × Finset Cell) = _
    rw [if_pos hB]

/-- Witness for C8: both adversaries stunned with counter 2 stay put,
come out with counter 1, and leave the trap set alone. -/
theorem claim_C8_witness :
    (0 : Nat) < 2 ∧
    ai_a_turn (4, 4) (0, 0) emptyGrid9 ({(2, 2)} : Finset Cell) []
        (fun _ _ => 0) (fun _ => 0) 2 (0, 1) (8, 8) =
      ((4, 4), 1, ({(2, 2)} : Finset Cell)) ∧
    ai_b_turn (5, 5) (0, 0) emptyGrid9 ({(2, 2)} : Finset Cell) 2
        (4, 4) =
      ((5, 5), 1, ({(2, 2)} : Finset Cell)) :=
  ⟨by decide,
    (claim_C8_stunned_turn emptyGrid9 (4, 4) (0, 0) (0, 1) (8, 8) (4, 4)
      ({(2, 2)} : Finset Cell) [] (fun _ _ => 0) (fun _ => 0) 2 2
      (by decide) (by decide)).1,
    (claim_C8_stunned_turn emptyGrid9 (4, 4) (0, 0) (0, 1) (5, 5) (4, 4)
      ({(2, 2)} : Finset Cell) [] (fun _ _ => 0) (fun _ => 0) 2 2
      (by decide) (by decide)).2⟩

/-- C9: `try_move` returns the unit-step destination when it is in
bounds and not a wall, and the original position unchanged otherwise;
consequently a blocked move is idempotent: applying it twice yields the
same unchanged position both times. -/
theorem claim_C9_try_move (pos : Cell) (d : Dir) (g : Grid) :
    (in_bounds (stepCell pos d) ∧ tileAt g (stepCell pos d) ≠ WALL →
      try_move pos d g = stepCell pos d) ∧
    (¬ (in_bounds (stepCell pos d) ∧ tileAt g (stepCell pos d) ≠ WALL) →
      try_move pos d g = pos ∧
        try_move (try_move pos d g) d g = try_move pos d g) := by
  constructor
  · intro h
    show (if _ then _ else _) = _
    rw [if_pos h]
  · intro h
    have h1 : try_move pos d g = pos := by
      show (if _ then _ else _) = _
      rw [if_neg h]
    refine ⟨h1, ?_⟩
    rw [h1]
    exact h1

/-- Witness for C9: moving west from the origin is blocked (out of
bounds), leaves the position unchanged, and stays unchanged when
re-attempted. -/
theorem claim_C9_witness :
    (¬ (in_bounds (stepCell (0, 0) .west) ∧
        tileAt emptyGrid9 (stepCell (0, 0) .west) ≠ WALL)) ∧
    try_move (0, 0) .west emptyGrid9 = (0, 0) ∧
    try_move (try_move (0, 0) .west emptyGrid9) .west emptyGrid9 =
      try_move (0, 0) .west emptyGrid9 :=
  ⟨by decide, (claim_C9_try_move (0, 0) .west emptyGrid9).2 (by decide)⟩

/-- C10: on the game's 9-by-9 grids, every operation keeps entity
positions in bounds and on non-wall cells: `try_move` only returns such
destinations (or the unchanged position), a `some` result of
`bfs_first_step` from such a cell is such a cell, and both adversaries'
turns preserve the property. -/
theorem claim_C10_positions_stay_open (g : Grid) (hg : g.length = 9) :
    (∀ (p : Cell) (d : Dir), onOpen g p → onOpen g (try_move p d g)) ∧
    (∀ (s t c : Cell), onOpen g s → bfs_first_step s t g = some c →
      onOpen g c) ∧
    (∀ (ai player goal ai2 : Cell) (traps : Finset Cell) (tm : List Dir)
      (model : List Dir → Dir → ℚ) (gc : Dir → ℚ) (stun : Nat),
      onOpen g ai →
      onOpen g (ai_a_turn ai player g traps tm model gc stun goal
        ai2).1) ∧
    (∀ (ai2 player aiP : Cell) (traps : Finset Cell) (stun : Nat),
      onOpen g ai2 →
      onOpen g (ai_b_turn ai2 player g traps stun aiP).1) := by
  refine ⟨?_, ?_, ?_, ?_⟩
  · intro p d hp
    by_cases h : in_bounds (stepCell p d) ∧ tileAt g (stepCell p d) ≠ WALL
    · have he : try_move p d g = stepCell p d := by
        show (if _ then _ else _) = _
        rw [if_pos h]
      rw [he]
      exact ⟨in_bounds_inGrid hg h.1, h.2⟩
    · have he : try_move p d g = p := by
        show (if _ then _ else _) = _
        rw [if_neg h]
      rw [he]
      exact hp
  · intro s t c hs hc
    rcases bfs_some_open hc with h | h
    · rw [h]; exact hs
    · exact h
  · intro ai player goal ai2 traps tm model gc stun hai
    by_cases hs : stun > 0
    · show onOpen g
        (if stun > 0 then _ else _ : Cell × Nat × Finset Cell).1
      rw [if_pos hs]
      exact hai
    · show onOpen g
        (if stun > 0 then _ else _ : Cell × Nat × Finset Cell).1
      rw [if_neg hs]
      exact aiALoop_open hg player goal ai2 _ ai traps hai
  · intro ai2 player aiP traps stun hai
    by_cases hs : stun > 0
    · show onOpen g
        (if stun > 0 then _ else _ : Cell × Nat × Finset Cell).1
      rw [if_pos hs]
      exact hai
    · show onOpen g
        (if stun > 0 then _ else _ : Cell × Nat × Finset Cell).1
      rw [if_neg hs]
      exact aiBLoop_open hg player aiP _ ai2 traps hai

/-- Witness for C10: on the empty 9-by-9 grid, a concrete move, BFS
first step and both adversary turns all land on open cells. -/
theorem claim_C10_witness :
    emptyGrid9.length = 9 ∧ onOpen emptyGrid9 (0, 0) ∧
    onOpen emptyGrid9 (try_move (0, 0) .east emptyGrid9) ∧
    onOpen emptyGrid9 (4, 3) ∧
    onOpen emptyGrid9 (ai_a_turn (0, 2) (0, 0) emptyGrid9 ∅ []
      (fun _ _ => 0) (fun _ => 0) 0 (0, 1) (8, 8)).1 ∧
    onOpen emptyGrid9 (ai_b_turn (4, 3) (0, 0) emptyGrid9 ∅ 0
      (8, 8)).1 :=
  ⟨rfl, by decide,
    (claim_C10_positions_stay_open emptyGrid9 rfl).1 (0, 0) .east
      (by decide),
    by decide,
    (claim_C10_positions_stay_open emptyGrid9 rfl).2.2.1 (0, 2) (0, 0)
      (0, 1) (8, 8) ∅ [] (fun _ _ => 0) (fun _ => 0) 0 (by decide),
    (claim_C10_positions_stay_open emptyGrid9 rfl).2.2.2 (4, 3) (0, 0)
      (8, 8) ∅ 0 (by decide)⟩

end GridGame
